import Mathlib

/-!
# SAMPLE storage engine (`ha_sample.cc`, `ha_sample.h`): row codec, bounded row
collection, scan session and table registry

Conventions of the embedding.

* A row buffer is a list of bytes (`List Nat`); a pointer into it is an offset.
  Every access is checked: an access outside the allocated bytes is undefined in
  C and yields `Fault.outOfBounds` here; a failed `sample_assert` calls `abort()`
  and yields `Fault.abort`; dereferencing `NULL` yields `Fault.nullDeref`; an
  integer division by zero yields `Fault.divideByZero`.
* `uint` is 32 bits wide, `size_t`, `uint64` and pointers are 64 bits wide, and
  multi-byte integers are stored little-endian (the x86-64 target of the plugin).
  Arithmetic on `uint` is reduced modulo `2^32` where the source computes in
  `uint`.
* A `SampleTable` lives at an address of a heap (`World.heap`); the registry
  `sample_tables` and the handles hold such addresses. A `list_t` is the list of
  the payloads of its nodes together with its `length` field. Freed memory other
  than tables is not part of the state.
* A call runs atomically, except the wait loops of `delete_table` and
  `rename_table`, which release the registry mutex: one evaluation of the loop
  condition is one step. The draw of `lrand48_r` and the outcome of
  `pthread_mutex_trylock` are arguments of `write_row`.
* A host `Field` is seen through the four calls the engine makes: `is_null()`,
  `result_type() == INT_RESULT`, `val_int()` and `val_str()`.
-/

namespace Sample

/-- Ways in which a call can have no defined result. -/
inductive Fault where
  | abort
  | outOfBounds
  | nullDeref
  | divideByZero
  deriving DecidableEq, Repr

/-- Result of a call: a value, or a fault. -/
inductive Res (α : Type) where
  | ok (a : α)
  | error (e : Fault)
  deriving DecidableEq, Repr

/-! ## Constants of `ha_sample.h` and of the host headers -/

abbrev SAMPLE_NULL : Nat := 1
abbrev SAMPLE_INT08 : Nat := 2
abbrev SAMPLE_INT32 : Nat := 3
abbrev SAMPLE_INT64 : Nat := 4
abbrev SAMPLE_STRING : Nat := 5
abbrev SAMPLE_TINYSTRING : Nat := 6

/-- Value of `INT_MAX` in `limits.h`. -/
abbrev INT_MAX : Int := 2147483647
/-- Value of `INT_MIN` in `limits.h`. -/
abbrev INT_MIN : Int := -2147483648

/-- Handler error code of the host (`my_base.h`): end of file. -/
abbrev HA_ERR_END_OF_FILE : Nat := 137
/-- Handler error code of the host (`my_base.h`): command not supported. -/
abbrev HA_ERR_WRONG_COMMAND : Nat := 131

/-- Modulus of `uint` arithmetic. -/
abbrev UINT_MOD : Nat := 4294967296
/-- Modulus of `uint64` arithmetic. -/
abbrev UINT64_MOD : Nat := 18446744073709551616

/-! ## Byte buffers -/

/-- Read of one byte at `off`. -/
def rd8 (b : List Nat) (off : Nat) : Res Nat :=
  match b[off]? with
  | some x => .ok x
  | none => .error .outOfBounds

/-- Read of an `n`-byte little-endian unsigned integer at `off`. -/
def rdLE (b : List Nat) (off : Nat) : Nat → Res Nat
  | 0 => .ok 0
  | n + 1 =>
    match rd8 b off with
    | .error e => .error e
    | .ok x =>
      match rdLE b (off + 1) n with
      | .error e => .error e
      | .ok r => .ok (x + 256 * r)

/-- Read of `n` consecutive bytes at `off`. -/
def rdN (b : List Nat) (off n : Nat) : Res (List Nat) :=
  if off + n ≤ b.length then .ok ((b.drop off).take n) else .error .outOfBounds

/-- Write of the bytes `bs` at `off` (a store, or a `memmove` into the buffer). -/
def wr (b : List Nat) (off : Nat) (bs : List Nat) : Res (List Nat) :=
  if off + bs.length ≤ b.length then .ok (b.take off ++ bs ++ b.drop (off + bs.length))
  else .error .outOfBounds

/-- The `n` little-endian bytes of `v` (the value is truncated to `n` bytes). -/
def leBytes (v : Nat) : Nat → List Nat
  | 0 => []
  | n + 1 => v % 256 :: leBytes (v / 256) n

/-- Bytes of a two's-complement store of `v` into an `n`-byte signed integer. -/
def intBytes (v : Int) (n : Nat) : List Nat :=
  leBytes (v % ((256 : Int) ^ n)).toNat n

/-- Value of an `n`-byte two's-complement integer whose unsigned reading is `u`. -/
def toSigned (u : Nat) (n : Nat) : Int :=
  if 2 * u < 256 ^ n then (u : Int) else (u : Int) - ((256 : Int) ^ n)

/-! ## Field values of the host row -/

/-- Value of one host field, as the engine observes it. -/
inductive FieldVal where
  | null
  | int (v : Int)
  | str (s : List Nat)
  deriving DecidableEq, Repr

/-- `field->is_null()`. -/
def FieldVal.is_null : FieldVal → Bool
  | .null => true
  | _ => false

/-- `field->result_type() == INT_RESULT`. -/
def FieldVal.is_int_result : FieldVal → Bool
  | .int _ => true
  | _ => false

/-- `field->val_int()`. -/
def FieldVal.val_int : FieldVal → Int
  | .int v => v
  | _ => 0

/-- `field->val_str(&tmp, &tmp)`: the bytes left in `tmp`. -/
def FieldVal.val_str : FieldVal → List Nat
  | .str s => s
  | _ => []

/-! ## Field accessors (`sample_field`, `sample_field_type`, ...) -/

/-- One iteration of the loop of `sample_field`: skip the field at `offset`
(`offset` is a `uint`). -/
def sample_field_step (row : List Nat) (offset : Nat) : Res Nat :=
  match rd8 row offset with
  | .error e => .error e
  | .ok type =>
    let offset := (offset + 1) % UINT_MOD
    if type = SAMPLE_NULL then .ok offset
    else if type = SAMPLE_STRING then
      match rdLE row offset 4 with
      | .error e => .error e
      | .ok l => .ok ((offset + (l + 4 + 4)) % UINT_MOD)
    else if type = SAMPLE_TINYSTRING then
      match rd8 row offset with
      | .error e => .error e
      | .ok l => .ok ((offset + (l + 1)) % UINT_MOD)
    else if type = SAMPLE_INT64 then .ok ((offset + 8) % UINT_MOD)
    else if type = SAMPLE_INT32 then .ok ((offset + 4) % UINT_MOD)
    else if type = SAMPLE_INT08 then .ok ((offset + 1) % UINT_MOD)
    else .ok offset

/-- The loop `for (col = 0; col < field; col++)` of `sample_field`, with `n`
iterations left. -/
def sample_field_loop (row : List Nat) : Nat → Nat → Res Nat
  | 0, offset => .ok offset
  | n + 1, offset =>
    match sample_field_step row offset with
    | .error e => .error e
    | .ok offset => sample_field_loop row n offset

/-- `sample_field(table, row, field)`: offset of column `field` in `row`;
`width` is `table->width`. -/
def sample_field (width : Nat) (row : List Nat) (field : Nat) : Res Nat :=
  if field < width then sample_field_loop row field 0 else .error .abort

/-- `sample_field_type(row)`, for the field that starts at `off`. -/
def sample_field_type (b : List Nat) (off : Nat) : Res Nat :=
  rd8 b off

/-- `sample_field_buffer(row)`: start of the payload of the field at `off`. -/
def sample_field_buffer (b : List Nat) (off : Nat) : Res Nat :=
  match rd8 b off with
  | .error e => .error e
  | .ok type =>
    let row := off + 1
    if type = SAMPLE_STRING then .ok (row + (4 + 4))
    else if type = SAMPLE_TINYSTRING then .ok (row + 1)
    else .ok row

/-- `sample_field_length(row)`: payload length of the field at `off`. -/
def sample_field_length (b : List Nat) (off : Nat) : Res Nat :=
  match rd8 b off with
  | .error e => .error e
  | .ok type =>
    let row := off + 1
    if type = SAMPLE_NULL then .ok 0
    else if type = SAMPLE_STRING then rdLE b row 4
    else if type = SAMPLE_TINYSTRING then rd8 b row
    else if type = SAMPLE_INT64 then .ok 8
    else if type = SAMPLE_INT32 then .ok 4
    else if type = SAMPLE_INT08 then .ok 1
    else .ok 0

/-- `sample_field_width(row)`: total width of the field at `off` (a `uint64`;
the sum is below `2^33` and never wraps). -/
def sample_field_width (b : List Nat) (off : Nat) : Res Nat :=
  match rd8 b off with
  | .error e => .error e
  | .ok type =>
    let row := off + 1
    if type = SAMPLE_NULL then .ok 1
    else if type = SAMPLE_STRING then
      match rdLE b row 4 with
      | .error e => .error e
      | .ok l => .ok (1 + (l + 4 + 4))
    else if type = SAMPLE_TINYSTRING then
      match rd8 b row with
      | .error e => .error e
      | .ok l => .ok (1 + (l + 1))
    else if type = SAMPLE_INT64 then .ok (1 + 8)
    else if type = SAMPLE_INT32 then .ok (1 + 4)
    else if type = SAMPLE_INT08 then .ok (1 + 1)
    else .ok 1

/-! ## Rows and the row codec (`record_place`, `record_store`) -/

/-- A `SampleRow`: the allocated buffer and the `uint length` field. -/
structure SampleRow where
  buffer : List Nat
  length : Nat
  deriving DecidableEq, Repr

/-- Entries of the arrays `real_lengths`, `comp_lengths` and `compressed` of
`record_place` for one column (`compressed = none` is the `NULL` pointer). -/
structure PlaceInfo where
  real_length : Nat
  comp_length : Nat
  compressed : Option (List Nat)
  deriving DecidableEq, Repr

/-- Body of the first loop of `record_place` for one column: the amount added to
`length` and the array entries of the column. `tmp.length()` is a `uint32`. -/
def place_measure (field : FieldVal) : Nat × PlaceInfo :=
  if field.is_null then (1, ⟨0, 0, none⟩)
  else if field.is_int_result then
    if field.val_int < 128 ∧ field.val_int > -128 then (1 + 1, ⟨0, 0, none⟩)
    else (1 + 8, ⟨0, 0, none⟩)
  else
    let tmp := field.val_str
    let tmp_length := tmp.length % UINT_MOD
    if tmp_length < 256 then (1 + (tmp_length + 1), ⟨tmp_length, 0, none⟩)
    else (1 + (tmp_length + 4 + 4), ⟨tmp_length, tmp_length, some (tmp.take tmp_length)⟩)

/-- First loop of `record_place`: the total `length` (a `size_t`). -/
def place_length : List FieldVal → Nat
  | [] => 0
  | field :: rest => (place_measure field).1 + place_length rest

/-- Body of the second loop of `record_place` for one column, after `buff` has
been computed by `sample_field`. -/
def place_column (buffer : List Nat) (buff : Nat) (field : FieldVal) (info : PlaceInfo) :
    Res (List Nat) :=
  if field.is_null then wr buffer buff [SAMPLE_NULL]
  else if field.is_int_result then
    if field.val_int < 128 ∧ field.val_int > -128 then
      wr buffer buff (SAMPLE_INT08 :: intBytes field.val_int 1)
    else if field.val_int < INT_MAX ∧ field.val_int > INT_MIN then
      wr buffer buff (SAMPLE_INT32 :: intBytes field.val_int 4)
    else
      wr buffer buff (SAMPLE_INT64 :: intBytes field.val_int 8)
  else
    match info.compressed with
    | none =>
      let tmp := field.val_str
      let tmp_length := tmp.length % UINT_MOD
      wr buffer buff (SAMPLE_TINYSTRING :: (tmp_length % 256) :: tmp.take tmp_length)
    | some compressed =>
      wr buffer buff (SAMPLE_STRING :: (leBytes info.comp_length 4 ++
        (leBytes info.real_length 4 ++ compressed.take info.comp_length)))

/-- Second loop of `record_place`, from column `col` on; `width` is
`sample_table->width`. -/
def place_loop (width : Nat) : Nat → List FieldVal → List Nat → Res (List Nat)
  | _, [], buffer => .ok buffer
  | col, field :: rest, buffer =>
    match sample_field width buffer col with
    | .error e => .error e
    | .ok buff =>
      match place_column buffer buff field (place_measure field).2 with
      | .error e => .error e
      | .ok buffer => place_loop width (col + 1) rest buffer

/-- `ha_sample::record_place`: encode the host row `fields` (`table->s->fields`
is `fields.length`) for a table of width `width`. The buffer comes zeroed from
`calloc`; `row->length` is a `uint`. -/
def record_place (width : Nat) (fields : List FieldVal) : Res SampleRow :=
  let length := place_length fields
  match place_loop width 0 fields (List.replicate length 0) with
  | .error e => .error e
  | .ok buffer => .ok ⟨buffer, length % UINT_MOD⟩

/-- Body of the loop of `record_store` for the field at `buff`: what is stored
into the host field (`none`: an unknown tag, the field is left as it was). -/
def store_column (b : List Nat) (buff : Nat) : Res (Option FieldVal) :=
  match sample_field_type b buff with
  | .error e => .error e
  | .ok type =>
    match sample_field_buffer b buff with
    | .error e => .error e
    | .ok buffer =>
      match sample_field_length b buff with
      | .error e => .error e
      | .ok length =>
        if type = SAMPLE_NULL then .ok (some .null)
        else if type = SAMPLE_STRING ∨ type = SAMPLE_TINYSTRING then
          match rdN b buffer length with
          | .error e => .error e
          | .ok s => .ok (some (.str s))
        else if type = SAMPLE_INT64 then
          match rdLE b buffer 8 with
          | .error e => .error e
          | .ok u => .ok (some (.int (toSigned u 8)))
        else if type = SAMPLE_INT32 then
          match rdLE b buffer 4 with
          | .error e => .error e
          | .ok u => .ok (some (.int (toSigned u 4)))
        else if type = SAMPLE_INT08 then
          match rdLE b buffer 1 with
          | .error e => .error e
          | .ok u => .ok (some (.int (toSigned u 1)))
        else .ok none

/-- Loop of `record_store` with `n` columns left, `buff` pointing at the next
field. -/
def store_loop (b : List Nat) : Nat → Nat → Res (List (Option FieldVal))
  | 0, _ => .ok []
  | n + 1, buff =>
    match store_column b buff with
    | .error e => .error e
    | .ok v =>
      match sample_field_width b buff with
      | .error e => .error e
      | .ok w =>
        match store_loop b n (buff + w) with
        | .error e => .error e
        | .ok vs => .ok (v :: vs)

/-- `ha_sample::record_store`: the return code and what was stored into the
host fields, column by column; `width` is `sample_table->width`. -/
def record_store (width : Nat) (row : Option SampleRow) : Res (Nat × List (Option FieldVal)) :=
  match row with
  | none => .ok (HA_ERR_END_OF_FILE, [])
  | some row =>
    match store_loop row.buffer width 0 with
    | .error e => .error e
    | .ok vs => .ok (0, vs)

/-! ## Description of the encoded bytes -/

/-- Bytes that the second loop of `record_place` writes for one field (the
argument of the stores of `place_column`, for a string shorter than `2^32`). -/
def encField : FieldVal → List Nat
  | .null => [SAMPLE_NULL]
  | .int v =>
    if v < 128 ∧ v > -128 then SAMPLE_INT08 :: intBytes v 1
    else if v < INT_MAX ∧ v > INT_MIN then SAMPLE_INT32 :: intBytes v 4
    else SAMPLE_INT64 :: intBytes v 8
  | .str s =>
    if s.length < 256 then SAMPLE_TINYSTRING :: s.length :: s
    else SAMPLE_STRING :: (leBytes s.length 4 ++ (leBytes s.length 4 ++ s))

/-- Concatenation of the encodings of the fields of a row, in column order. -/
def encRow : List FieldVal → List Nat
  | [] => []
  | f :: fs => encField f ++ encRow fs

/-- Values the host can hand to the engine: `longlong` integers (`val_int`) and
strings whose length fits the `uint32` of `String::length()`. -/
def FieldVal.valid : FieldVal → Prop
  | .null => True
  | .int v => -9223372036854775808 ≤ v ∧ v ≤ 9223372036854775807
  | .str s => s.length < UINT_MOD

instance FieldVal.decValid (f : FieldVal) : Decidable f.valid := by
  cases f <;> unfold FieldVal.valid <;> infer_instance

/-- A string of `2^32 - 1` zero bytes, the longest a `uint32` length admits. -/
def bigString : List Nat := List.replicate 4294967295 0

/-- Offset reached by walking `sample_field_width` over `k` fields from `off`,
as the `buff += sample_field_width(buff)` of `record_store` does (a 64-bit
pointer: no reduction modulo `2^32`). -/
def width_walk (b : List Nat) : Nat → Nat → Res Nat
  | 0, off => .ok off
  | k + 1, off =>
    match sample_field_width b off with
    | .error e => .error e
    | .ok w => width_walk b k (off + w)

/-! ## Lists (`list_t`) -/

/-- A `list_t`: the payloads of the nodes reachable from `head`, first node first,
and the `uint64 length` field. -/
structure list_t (α : Type) where
  head : List α
  length : Nat
  deriving DecidableEq, Repr

/-- `list_alloc()`: the memory comes zeroed from `calloc`. -/
def list_alloc {α : Type} : list_t α := ⟨[], 0⟩

/-- `list_is_empty(list)`. -/
def list_is_empty {α : Type} (list : list_t α) : Bool :=
  match list.head with
  | [] => true
  | _ :: _ => false

/-- `list_insert_head(list, item)`. -/
def list_insert_head {α : Type} (list : list_t α) (item : α) : list_t α :=
  ⟨item :: list.head, (list.length + 1) % UINT64_MOD⟩

/-- `list_remove_node(list, node)`, the node given by its position in the chain;
for a node that is not in the chain the walk runs off the end of the list. -/
def list_remove_node {α : Type} (list : list_t α) (node : Nat) : Res (α × list_t α) :=
  match list.head[node]? with
  | none => .error .nullDeref
  | some payload =>
    .ok (payload, ⟨list.head.eraseIdx node, (list.length + (UINT64_MOD - 1)) % UINT64_MOD⟩)

/-- `list_remove_head(list)`: `none` is the `NULL` returned for an empty list. -/
def list_remove_head {α : Type} (list : list_t α) : Res (Option α × list_t α) :=
  match list.head with
  | [] => .ok (none, list)
  | _ :: _ =>
    match list_remove_node list 0 with
    | .error e => .error e
    | .ok (payload, list) => .ok (some payload, list)

/-- The walk of `list_delete` along the chain: the chain without the first node
whose payload is `item`, or `none` when the walk reaches the end. -/
def list_delete_walk {α : Type} [DecidableEq α] (item : α) : List α → Option (List α)
  | [] => none
  | payload :: next =>
    if payload = item then some next
    else
      match list_delete_walk item next with
      | none => none
      | some rest => some (payload :: rest)

/-- `list_delete(list, item)`: the returned flag and the list. -/
def list_delete {α : Type} [DecidableEq α] (list : list_t α) (item : α) : Bool × list_t α :=
  match list_delete_walk item list.head with
  | some chain => (true, ⟨chain, (list.length + (UINT64_MOD - 1)) % UINT64_MOD⟩)
  | none => (false, list)

/-- One operation on a list. -/
inductive ListOp (α : Type) where
  | insert_head (item : α)
  | remove_head
  | delete (item : α)
  deriving DecidableEq, Repr

/-- Effect of one operation on a list. -/
def list_apply {α : Type} [DecidableEq α] (list : list_t α) : ListOp α → Res (list_t α)
  | .insert_head item => .ok (list_insert_head list item)
  | .remove_head =>
    match list_remove_head list with
    | .error e => .error e
    | .ok (_, list) => .ok list
  | .delete item => .ok (list_delete list item).2

/-- Effect of a sequence of operations on a list. -/
def list_run {α : Type} [DecidableEq α] : List (ListOp α) → list_t α → Res (list_t α)
  | [], list => .ok list
  | op :: ops, list =>
    match list_apply list op with
    | .error e => .error e
    | .ok list => list_run ops list

/-! ## Tables and the registry -/

/-- A `SampleTable` (the mutex and the host lock are not part of the state; the
name is the bytes of the C string). -/
structure SampleTable where
  name : List Nat
  users : Nat
  width : Nat
  rate : Nat
  dropping : Bool
  limit : Nat
  rows : list_t SampleRow
  deriving DecidableEq, Repr

/-- Global state of the plugin: the heap of tables (`none`: freed), the registry
`sample_tables` (its payloads are table addresses), the seed counter, the system
variables `sample_rate` and `sample_limit`, the global counter, and the names of
the files removed by `sample_table_drop`. -/
structure World where
  heap : List (Option SampleTable)
  sample_tables : list_t Nat
  sample_seed : Nat
  sample_rate : Nat
  sample_limit : Nat
  sample_counter_rows_inserted : Nat
  removed : List (List Nat)
  deriving DecidableEq, Repr

/-- Read of the table at address `p`. -/
def World.table (w : World) (p : Nat) : Res SampleTable :=
  match w.heap[p]? with
  | some (some t) => .ok t
  | _ => .error .outOfBounds

/-- Write of the table at address `p`. -/
def World.setTable (w : World) (p : Nat) (t : SampleTable) : World :=
  { w with heap := w.heap.set p (some t) }

/-- State before `sample_init_func`, with the values of the two system variables. -/
def World.boot (rate limit : Nat) : World :=
  ⟨[], ⟨[], 0⟩, 0, rate, limit, 0, []⟩

/-- `sample_init_func`: the seed counter and the registry. -/
def sample_init_func (w : World) : World :=
  { w with sample_seed := 1, sample_tables := list_alloc }

/-- The loop of `sample_table_open` over the nodes of the registry. -/
def find_table (w : World) (name : List Nat) : List Nat → Res (Option Nat)
  | [] => .ok none
  | payload :: next =>
    match w.table payload with
    | .error e => .error e
    | .ok t => if t.name = name then .ok (some payload) else find_table w name next

/-- `sample_table_open(name, width, rate, limit)`: the returned pointer (`none` is
`NULL`) and the state. -/
def sample_table_open (name : List Nat) (width rate limit : Nat) (w : World) :
    Res (Option Nat × World) :=
  match find_table w name w.sample_tables.head with
  | .error e => .error e
  | .ok (some table) => .ok (some table, w)
  | .ok none =>
    if width ≠ 0 ∧ rate ≠ 0 then
      .ok (some w.heap.length,
        { w with heap := w.heap ++ [some ⟨name, 0, width, rate, false, limit, list_alloc⟩] })
    else .ok (none, w)

/-- Bytes of the suffix `.sample`. -/
def sample_ext : List Nat := [46, 115, 97, 109, 112, 108, 101]

/-- `sample_table_drop(table, hard)`. -/
def sample_table_drop (table : Nat) (hard : Bool) (w : World) : Res World :=
  match w.table table with
  | .error e => .error e
  | .ok t =>
    let removed := if hard then ((t.name ++ sample_ext).take 1023) :: w.removed else w.removed
    .ok { w with
      sample_tables := (list_delete w.sample_tables table).2
      heap := w.heap.set table none
      removed := removed }

/-! ## Handles (`ha_sample`) -/

/-- Members of a handle: `fields` is `table->s->fields`, `sample_rand` the seed
last given to `srand48_r`. -/
structure ha_sample where
  fields : Nat
  sample_table : Option Nat
  sample_rows : Option (list_t SampleRow)
  sample_row : Option SampleRow
  counter_rows_inserted : Nat
  sample_rand : Nat
  deriving DecidableEq, Repr

/-- The constructor `ha_sample::ha_sample`, for a host table of `fields` columns. -/
def ha_sample.create (fields : Nat) : ha_sample :=
  ⟨fields, none, none, none, 0, 0⟩

/-- `ha_sample::open(name, mode, test_if_locked)`: the return code, the handle and
the state. With a `NULL` table the increment of `users` dereferences `NULL`. -/
def ha_sample.open (h : ha_sample) (name : List Nat) (w : World) :
    Res (Nat × ha_sample × World) :=
  match sample_table_open name h.fields w.sample_rate w.sample_limit w with
  | .error e => .error e
  | .ok (none, _) => .error .nullDeref
  | .ok (some table, w) =>
    match w.table table with
    | .error e => .error e
    | .ok t =>
      let w := w.setTable table { t with users := (t.users + 1) % UINT_MOD }
      let seed := w.sample_seed
      let w := { w with sample_seed := (seed + 1) % UINT64_MOD }
      .ok (0, { h with sample_table := some table, sample_rand := seed,
                       counter_rows_inserted := 0 }, w)

/-- `ha_sample::close()`. -/
def ha_sample.close (h : ha_sample) (w : World) : Res (Nat × ha_sample × World) :=
  match h.sample_table with
  | none => .error .nullDeref
  | some table =>
    match w.table table with
    | .error e => .error e
    | .ok t =>
      let w := w.setTable table { t with users := (t.users + (UINT_MOD - 1)) % UINT_MOD }
      .ok (0, { h with sample_table := none },
        { w with sample_counter_rows_inserted :=
            (w.sample_counter_rows_inserted + h.counter_rows_inserted) % UINT64_MOD })

/-- `ha_sample::write_row(buf)`: `buf` is the host row, `r` the draw of
`lrand48_r`, `trylock` whether `pthread_mutex_trylock` returned 0. -/
def ha_sample.write_row (h : ha_sample) (buf : List FieldVal) (r : Nat) (trylock : Bool)
    (w : World) : Res (Nat × ha_sample × World) :=
  match h.sample_table with
  | none => .error .nullDeref
  | some table =>
    match w.table table with
    | .error e => .error e
    | .ok t =>
      if t.rate = 0 then .error .divideByZero
      else if r % t.rate = 0 then
        match record_place t.width buf with
        | .error e => .error e
        | .ok row =>
          let w :=
            if trylock = true ∧ t.limit > t.rows.length then
              w.setTable table { t with rows := list_insert_head t.rows row }
            else w
          .ok (0, { h with counter_rows_inserted := (h.counter_rows_inserted + 1) % UINT_MOD }, w)
      else .ok (0, h, w)

/-- `ha_sample::update_row(old_data, new_data)`. -/
def ha_sample.update_row (h : ha_sample) (_old_data _new_data : List FieldVal) (w : World) :
    Nat × ha_sample × World :=
  (HA_ERR_WRONG_COMMAND, h, w)

/-- `ha_sample::delete_row(buf)`. -/
def ha_sample.delete_row (h : ha_sample) (_buf : List FieldVal) (w : World) :
    Nat × ha_sample × World :=
  (HA_ERR_WRONG_COMMAND, h, w)

/-- `ha_sample::rnd_end()`: the rows left in the snapshot are freed. -/
def ha_sample.rnd_end (h : ha_sample) (w : World) : Nat × ha_sample × World :=
  (0, { h with sample_rows := none, sample_row := none }, w)

/-- `ha_sample::rnd_init(scan)`. -/
def ha_sample.rnd_init (h : ha_sample) (_scan : Bool) (w : World) : Nat × ha_sample × World :=
  let (_, h, w) := h.rnd_end w
  (0, h, w)

/-- `ha_sample::record_store(row, buf)` of a handle: `sample_table` is dereferenced
only for a non-null row. -/
def ha_sample.record_store (h : ha_sample) (w : World) (row : Option SampleRow) :
    Res (Nat × List (Option FieldVal)) :=
  match row with
  | none => .ok (HA_ERR_END_OF_FILE, [])
  | some row =>
    match h.sample_table with
    | none => .error .nullDeref
    | some table =>
      match w.table table with
      | .error e => .error e
      | .ok t => Sample.record_store t.width (some row)

/-- `ha_sample::rnd_next(buf)`: the return code, what was stored into the host
row, the handle and the state. -/
def ha_sample.rnd_next (h : ha_sample) (w : World) :
    Res (Nat × List (Option FieldVal) × ha_sample × World) :=
  let swapped : Res (list_t SampleRow × World) :=
    match h.sample_rows with
    | some rows => .ok (rows, w)
    | none =>
      match h.sample_table with
      | none => .error .nullDeref
      | some table =>
        match w.table table with
        | .error e => .error e
        | .ok t => .ok (t.rows, w.setTable table { t with rows := list_alloc })
  match swapped with
  | .error e => .error e
  | .ok (rows, w) =>
    let removed : Res (Option SampleRow × list_t SampleRow) :=
      if rows.length ≠ 0 then list_remove_head rows else .ok (none, rows)
    match removed with
    | .error e => .error e
    | .ok (row, rows) =>
      let h := { h with sample_rows := some rows, sample_row := row }
      match h.record_store w row with
      | .error e => .error e
      | .ok (rc, stored) => .ok (rc, stored, h, w)

/-- `ha_sample::index_init(idx, sorted)`. -/
def ha_sample.index_init (h : ha_sample) (_idx : Nat) (_sorted : Bool) (w : World) :
    Nat × ha_sample × World :=
  (HA_ERR_WRONG_COMMAND, h, w)

/-- `ha_sample::index_read(buf, key, key_len, find_flag)`. -/
def ha_sample.index_read (h : ha_sample) (_buf _key : List Nat) (_key_len _find_flag : Nat)
    (w : World) : Nat × ha_sample × World :=
  (HA_ERR_WRONG_COMMAND, h, w)

/-- `ha_sample::index_end()`. -/
def ha_sample.index_end (h : ha_sample) (w : World) : Nat × ha_sample × World :=
  (HA_ERR_WRONG_COMMAND, h, w)

/-- `ha_sample::rnd_pos(buf, pos)`. -/
def ha_sample.rnd_pos (h : ha_sample) (_buf _pos : List Nat) (w : World) :
    Nat × ha_sample × World :=
  (HA_ERR_WRONG_COMMAND, h, w)

/-- `ha_sample::delete_table(name)` up to the first evaluation of the condition of
its wait loop: the table the call waits for (`none`: the call returns at once). -/
def ha_sample.delete_table_enter (name : List Nat) (w : World) : Res (Option Nat × World) :=
  match sample_table_open name 0 0 0 w with
  | .error e => .error e
  | .ok (none, w) => .ok (none, w)
  | .ok (some table, w) =>
    match w.table table with
    | .error e => .error e
    | .ok t =>
      if t.dropping then .ok (none, w)
      else
        .ok (some table,
          w.setTable table { t with users := (t.users + 1) % UINT_MOD, dropping := true })

/-- One evaluation of `while (table->users > 1)` in `delete_table`: `false` when
the call stays in the loop (it releases the registry mutex and sleeps, the state
is left as it is), `true` when it leaves the loop, drops the table and returns. -/
def ha_sample.delete_table_poll (table : Nat) (w : World) : Res (Bool × World) :=
  match w.table table with
  | .error e => .error e
  | .ok t =>
    if t.users > 1 then .ok (false, w)
    else
      match sample_table_drop table true w with
      | .error e => .error e
      | .ok w => .ok (true, w)

/-- `ha_sample::delete_table(name)` up to its return or to the first turn of its
wait loop: whether it has returned, and the state. -/
def ha_sample.delete_table (name : List Nat) (w : World) : Res (Bool × World) :=
  match ha_sample.delete_table_enter name w with
  | .error e => .error e
  | .ok (none, w) => .ok (true, w)
  | .ok (some table, w) => ha_sample.delete_table_poll table w

/-- `ha_sample::rename_table(from, to)` up to the first evaluation of the condition
of its wait loop. -/
def ha_sample.rename_table_enter (h : ha_sample) (from_name : List Nat) (w : World) :
    Res (Option Nat × World) :=
  match sample_table_open from_name 0 0 0 w with
  | .error e => .error e
  | .ok (none, w) => .ok (none, w)
  | .ok (some table, w) =>
    match w.table table with
    | .error e => .error e
    | .ok t =>
      if h.sample_table ≠ some table then
        .ok (some table, w.setTable table { t with users := (t.users + 1) % UINT_MOD })
      else .ok (some table, w)

/-- One evaluation of `while (table->users > 1)` in `rename_table`: `false` when
the call stays in the loop, `true` when it leaves the loop, changes the name and
returns. -/
def ha_sample.rename_table_poll (h : ha_sample) (to_name : List Nat) (table : Nat) (w : World) :
    Res (Bool × World) :=
  match w.table table with
  | .error e => .error e
  | .ok t =>
    if t.users > 1 then .ok (false, w)
    else
      let t := { t with name := to_name }
      let t :=
        if h.sample_table ≠ some table then
          { t with users := (t.users + (UINT_MOD - 1)) % UINT_MOD }
        else t
      .ok (true, w.setTable table t)

/-- `ha_sample::rename_table(from, to)` up to its return or to the first turn of
its wait loop: whether it has returned, and the state. -/
def ha_sample.rename_table (h : ha_sample) (from_name to_name : List Nat) (w : World) :
    Res (Bool × World) :=
  match h.rename_table_enter from_name w with
  | .error e => .error e
  | .ok (none, w) => .ok (true, w)
  | .ok (some table, w) => h.rename_table_poll to_name table w

/-! ## Sequences of calls -/

/-- One call on a handle, among those that touch the rows of a table. -/
inductive Call where
  | write_row (buf : List FieldVal) (r : Nat) (trylock : Bool)
  | rnd_next
  | rnd_init (scan : Bool)
  | rnd_end
  deriving DecidableEq, Repr

/-- Effect of one call on the handle and the state. -/
def ha_sample.call (h : ha_sample) (w : World) : Call → Res (ha_sample × World)
  | .write_row buf r trylock =>
    match h.write_row buf r trylock w with
    | .error e => .error e
    | .ok (_, h, w) => .ok (h, w)
  | .rnd_next =>
    match h.rnd_next w with
    | .error e => .error e
    | .ok (_, _, h, w) => .ok (h, w)
  | .rnd_init scan => .ok (h.rnd_init scan w).2
  | .rnd_end => .ok (h.rnd_end w).2

/-- Effect of a sequence of calls on the handle and the state. -/
def ha_sample.calls : List Call → ha_sample → World → Res (ha_sample × World)
  | [], h, w => .ok (h, w)
  | c :: cs, h, w =>
    match h.call w c with
    | .error e => .error e
    | .ok (h, w) => ha_sample.calls cs h w

/-- Successive `write_row` calls, one for each host row with its draw and the
outcome of its try-lock. -/
def ha_sample.write_rows : List (List FieldVal × Nat × Bool) → ha_sample → World →
    Res (ha_sample × World)
  | [], h, w => .ok (h, w)
  | (buf, r, trylock) :: rest, h, w =>
    match h.write_row buf r trylock w with
    | .error e => .error e
    | .ok (_, h, w) => ha_sample.write_rows rest h w

/-- Number of draws that admit the row for a table of rate `rate`. -/
def admitted (rate : Nat) : List (List FieldVal × Nat × Bool) → Nat
  | [] => 0
  | (_, r, _) :: rest => (if r % rate = 0 then 1 else 0) + admitted rate rest

/-- Results of `n` successive `rnd_next` calls: the return code and the stored
values of each call, the handle and the state. -/
def ha_sample.scan : Nat → ha_sample → World →
    Res (List (Nat × List (Option FieldVal)) × ha_sample × World)
  | 0, h, w => .ok ([], h, w)
  | n + 1, h, w =>
    match h.rnd_next w with
    | .error e => .error e
    | .ok (rc, stored, h, w) =>
      match ha_sample.scan n h w with
      | .error e => .error e
      | .ok (out, h, w) => .ok ((rc, stored) :: out, h, w)

/-- Successive `open` calls, one new handle for each pair of a number of columns
and a table name: the handles in the order of the calls, and the state. -/
def open_all : List (Nat × List Nat) → World → Res (List ha_sample × World)
  | [], w => .ok ([], w)
  | (fields, name) :: rest, w =>
    match (ha_sample.create fields).open name w with
    | .error e => .error e
    | .ok (_, h, w) =>
      match open_all rest w with
      | .error e => .error e
      | .ok (hs, w) => .ok (h :: hs, w)

/-! ## Invariants -/

/-- The table at address `p` has capacity `limit`, its `length` field counts its
rows, and it holds at most `limit` rows. -/
def table_bounded (w : World) (p limit : Nat) : Prop :=
  ∃ t, w.table p = .ok t ∧ t.limit = limit ∧ t.rows.length = t.rows.head.length ∧
    t.rows.head.length ≤ limit

instance table_bounded_decidable (w : World) (p limit : Nat) :
    Decidable (table_bounded w p limit) :=
  match h : w.table p with
  | .ok t =>
    if hc : t.limit = limit ∧ t.rows.length = t.rows.head.length ∧ t.rows.head.length ≤ limit
    then isTrue ⟨t, h, hc.1, hc.2.1, hc.2.2⟩
    else isFalse (fun ⟨t2, h2, a, b, c⟩ => hc (by rw [h] at h2; cases h2; exact ⟨a, b, c⟩))
  | .error _ => isFalse (fun ⟨t2, h2, _⟩ => by rw [h] at h2; cases h2)

/-! ## Example states -/

/-- State after `sample_init_func` with `sample_rate = 1` and `sample_limit = 3`. -/
def world_init : World := sample_init_func (World.boot 1 3)

/-- State after a handle of a two-column host table has opened the name `t` in
`world_init`. -/
def world_open : World :=
  ⟨[some ⟨[116], 1, 2, 1, false, 3, ⟨[], 0⟩⟩], ⟨[], 0⟩, 2, 1, 3, 0, []⟩

/-- The handle that has opened the name `t` in `world_init`. -/
def handle_open : ha_sample := ⟨2, some 0, none, none, 0, 1⟩

/-- A state whose registry lists two tables: `a` at address 0, without users, and
`b` at address 1, with one user and one row. -/
def world_two : World :=
  ⟨[some ⟨[97], 0, 2, 1, false, 3, ⟨[], 0⟩⟩,
    some ⟨[98], 1, 1, 1, false, 3, ⟨[⟨[SAMPLE_NULL], 1⟩], 1⟩⟩],
   ⟨[1, 0], 2⟩, 3, 1, 3, 0, []⟩

/-- Four host rows `(1, "a")`, `(2, "b")`, `(3, "c")`, `(4, "d")`, each with a draw
and a successful try-lock. -/
def four_rows : List (List FieldVal × Nat × Bool) :=
  [([.int 1, .str [97]], 5, true), ([.int 2, .str [98]], 11, true),
   ([.int 3, .str [99]], 0, true), ([.int 4, .str [100]], 7, true)]

/-- A sequence of calls on one handle: writes, scans and a new session. -/
def some_calls : List Call :=
  [.write_row [.int 1, .str [97]] 5 true, .write_row [.int 2, .str [98]] 11 true,
   .rnd_next, .write_row [.int 3, .str [99]] 0 true, .write_row [.int 4, .str [100]] 7 false,
   .write_row [.int 5, .str [101]] 7 true, .write_row [.int 6, .str [102]] 7 true,
   .write_row [.int 7, .str [103]] 7 true, .rnd_next, .rnd_init true, .rnd_next, .rnd_end]

/-! # Theorems -/

/-! ## Lemmas on the row codec -/

theorem rd8_append_right (a b : List Nat) (i : Nat) :
    rd8 (a ++ b) (a.length + i) = rd8 b i := by
  simp [rd8, List.getElem?_append_right]

theorem rd8_append_cons (a : List Nat) (x : Nat) (b : List Nat) :
    rd8 (a ++ x :: b) a.length = .ok x := by
  have h := rd8_append_right a (x :: b) 0
  simpa [rd8] using h

theorem rd8_append_cons2 (a : List Nat) (x y : Nat) (b : List Nat) :
    rd8 (a ++ x :: y :: b) (a.length + 1) = .ok y := by
  have h := rd8_append_right a (x :: y :: b) 1
  simpa [rd8] using h

theorem length_leBytes (v n : Nat) : (leBytes v n).length = n := by
  induction n generalizing v with
  | zero => rfl
  | succ n ih => simp [leBytes, ih]

theorem rdLE_leBytes (a : List Nat) (v n : Nat) (b : List Nat) :
    rdLE (a ++ (leBytes v n ++ b)) a.length n = .ok (v % 256 ^ n) := by
  induction n generalizing a v with
  | zero => simp [rdLE, Nat.mod_one]
  | succ n ih =>
    have h := ih (a ++ [v % 256]) (v / 256)
    simp only [List.append_assoc, List.length_append, List.length_singleton,
      List.singleton_append] at h
    simp only [rdLE, leBytes, List.cons_append, rd8_append_cons, h]
    congr 1
    rw [pow_succ, Nat.mul_comm (256 ^ n) 256, Nat.mod_mul]


theorem rdN_append (a s b : List Nat) :
    rdN (a ++ (s ++ b)) a.length s.length = .ok s := by
  simp [rdN]

theorem wr_replicate (a bs : List Nat) (m : Nat) (h : bs.length ≤ m) :
    wr (a ++ List.replicate m 0) a.length bs = .ok (a ++ bs ++ List.replicate (m - bs.length) 0) := by
  have h1 : a.length + bs.length ≤ (a ++ List.replicate m 0).length := by simp; omega
  simp only [wr, h1, if_true]
  congr 1
  simp [List.drop_append_eq_append_drop, List.take_append_eq_append_take]
  

theorem length_intBytes (v : Int) (n : Nat) : (intBytes v n).length = n := by
  simp [intBytes, length_leBytes]

theorem rdLE_intBytes (a : List Nat) (v : Int) (n : Nat) (b : List Nat) :
    rdLE (a ++ (intBytes v n ++ b)) a.length n = .ok (v % ((256 : Int) ^ n)).toNat := by
  rw [intBytes, rdLE_leBytes]
  congr 1
  apply Nat.mod_eq_of_lt
  have hpos : (0 : Int) < (256 : Int) ^ n := by positivity
  have h1 := Int.emod_lt_of_pos v hpos
  have h2 := Int.emod_nonneg v (ne_of_gt hpos)
  zify
  rw [Int.toNat_of_nonneg h2]
  exact_mod_cast h1

theorem toSigned_emod (v : Int) (n : Nat)
    (h1 : -((256 : Int) ^ n) ≤ 2 * v) (h2 : 2 * v < (256 : Int) ^ n) :
    toSigned (v % ((256 : Int) ^ n)).toNat n = v := by
  have hpos : (0 : Int) < (256 : Int) ^ n := by positivity
  have hnn := Int.emod_nonneg v (ne_of_gt hpos)
  unfold toSigned
  have hc : ((v % (256 : Int) ^ n).toNat : Int) = v % (256 : Int) ^ n := Int.toNat_of_nonneg hnn
  by_cases hv : 0 ≤ v
  · have : v % (256 : Int) ^ n = v := Int.emod_eq_of_lt hv (by omega)
    rw [if_pos]
    · rw [hc, this]
    · zify; rw [hc, this]; exact h2
  · have : v % (256 : Int) ^ n = v + (256 : Int) ^ n := by
      rw [← Int.add_emod_self]
      exact Int.emod_eq_of_lt (by omega) (by omega)
    rw [if_neg]
    · rw [hc, this]; ring
    · zify; rw [hc, this]; omega


theorem place_column_eq (buffer : List Nat) (buff : Nat) (f : FieldVal) (hf : f.valid) :
    place_column buffer buff f (place_measure f).2 = wr buffer buff (encField f) := by
  cases f with
  | null => simp [place_column, FieldVal.is_null, encField]
  | int v =>
    simp only [place_column, FieldVal.is_null, FieldVal.is_int_result, FieldVal.val_int, encField]
    split_ifs <;> simp_all
  | str s =>
    have hs : s.length % UINT_MOD = s.length := Nat.mod_eq_of_lt hf
    simp only [place_column, place_measure, FieldVal.is_null, FieldVal.is_int_result,
      FieldVal.val_str, encField, hs]
    by_cases h : s.length < 256
    · simp [h, Nat.mod_eq_of_lt h]
    · simp [h]

theorem length_encField_le (f : FieldVal) (hf : f.valid) :
    (encField f).length ≤ (place_measure f).1 := by
  cases f with
  | null => simp [place_measure, FieldVal.is_null, encField]
  | int v =>
    simp only [place_measure, FieldVal.is_null, FieldVal.is_int_result, FieldVal.val_int, encField]
    split_ifs <;> simp_all [length_intBytes]
  | str s =>
    have hs : s.length % UINT_MOD = s.length := Nat.mod_eq_of_lt hf
    simp only [place_measure, FieldVal.is_null, FieldVal.is_int_result,
      FieldVal.val_str, encField, hs]
    by_cases h : s.length < 256
    · simp [h]; omega
    · simp [h, length_leBytes]; omega


theorem rdLE_cons_leBytes (a : List Nat) (t v n : Nat) (b : List Nat) :
    rdLE (a ++ t :: (leBytes v n ++ b)) (a.length + 1) n = .ok (v % 256 ^ n) := by
  have h := rdLE_leBytes (a ++ [t]) v n b
  simpa using h

theorem rdLE_cons_intBytes (a : List Nat) (t : Nat) (v : Int) (n : Nat) (b : List Nat) :
    rdLE (a ++ t :: (intBytes v n ++ b)) (a.length + 1) n
      = .ok (v % ((256 : Int) ^ n)).toNat := by
  have h := rdLE_intBytes (a ++ [t]) v n b
  simpa using h

theorem rdN_tiny (a : List Nat) (t u : Nat) (s b : List Nat) :
    rdN (a ++ t :: u :: (s ++ b)) (a.length + 1 + 1) s.length = .ok s := by
  have h := rdN_append (a ++ [t, u]) s b
  simpa using h

theorem rdN_long (a : List Nat) (t v w : Nat) (s b : List Nat) :
    rdN (a ++ t :: (leBytes v 4 ++ (leBytes w 4 ++ (s ++ b)))) (a.length + 1 + (4 + 4)) s.length
      = .ok s := by
  have h := rdN_append (a ++ t :: (leBytes v 4 ++ leBytes w 4)) s b
  simpa [length_leBytes, Nat.add_assoc] using h

/-- Width of the encoding of a field, read back by `sample_field_width`. -/
theorem sample_field_width_enc (a : List Nat) (f : FieldVal) (b : List Nat) (hf : f.valid) :
    sample_field_width (a ++ (encField f ++ b)) a.length = .ok (encField f).length := by
  cases f with
  | null => simp [encField, sample_field_width, rd8_append_cons]
  | int v =>
    simp only [encField]
    split_ifs <;>
      simp [sample_field_width, rd8_append_cons, length_intBytes]
  | str s =>
    simp only [encField]
    split_ifs with h
    · simp [sample_field_width, rd8_append_cons, rd8_append_cons2]; omega
    · have hs : s.length % 256 ^ 4 = s.length := Nat.mod_eq_of_lt hf
      simp [sample_field_width, rd8_append_cons, rdLE_cons_leBytes, length_leBytes, hs]
      omega


/-- One step of `sample_field` skips exactly the encoding of a field. -/
theorem sample_field_step_enc (a : List Nat) (f : FieldVal) (b : List Nat) (hf : f.valid)
    (hlt : a.length + (encField f).length < UINT_MOD) :
    sample_field_step (a ++ (encField f ++ b)) a.length = .ok (a.length + (encField f).length) := by
  cases f with
  | null =>
    simp only [encField, List.length_singleton] at hlt ⊢
    simp [sample_field_step, rd8_append_cons, Nat.mod_eq_of_lt hlt]
  | int v =>
    simp only [encField] at hlt ⊢
    split_ifs at hlt ⊢ <;>
    · simp only [List.length_cons, length_intBytes, UINT_MOD] at hlt
      have h1 : (a.length + 1) % 4294967296 = a.length + 1 := Nat.mod_eq_of_lt (by omega)
      simp [sample_field_step, rd8_append_cons, length_intBytes, h1]
      omega
  | str s =>
    simp only [encField] at hlt ⊢
    split_ifs at hlt ⊢ with h
    · simp only [List.length_cons, UINT_MOD] at hlt
      have h1 : (a.length + 1) % 4294967296 = a.length + 1 := Nat.mod_eq_of_lt (by omega)
      simp [sample_field_step, rd8_append_cons, rd8_append_cons2, h1]
      simp only [UINT_MOD]
      omega
    · simp only [List.length_cons, List.length_append, length_leBytes, UINT_MOD] at hlt
      have h1 : (a.length + 1) % 4294967296 = a.length + 1 := Nat.mod_eq_of_lt (by omega)
      have hs : s.length % 4294967296 = s.length := Nat.mod_eq_of_lt hf
      simp [sample_field_step, rd8_append_cons, rdLE_cons_leBytes, length_leBytes, h1, hs]
      simp only [UINT_MOD]
      omega

/-- The decoder reads back the field whose encoding starts at the cursor. -/
theorem store_column_enc (a : List Nat) (f : FieldVal) (b : List Nat) (hf : f.valid) :
    store_column (a ++ (encField f ++ b)) a.length = .ok (some f) := by
  cases f with
  | null =>
    simp [encField, store_column, sample_field_type, sample_field_buffer, sample_field_length,
      rd8_append_cons]
  | int v =>
    obtain ⟨hlo, hhi⟩ := hf
    simp only [encField, INT_MAX, INT_MIN]
    split_ifs with h1 h2
    · simp [store_column, sample_field_type, sample_field_buffer, sample_field_length,
        rd8_append_cons, rdLE_cons_intBytes]
      exact toSigned_emod v 1 (by norm_num; omega) (by norm_num; omega)
    · simp [store_column, sample_field_type, sample_field_buffer, sample_field_length,
        rd8_append_cons, rdLE_cons_intBytes]
      exact toSigned_emod v 4 (by norm_num; omega) (by norm_num; omega)
    · simp [store_column, sample_field_type, sample_field_buffer, sample_field_length,
        rd8_append_cons, rdLE_cons_intBytes]
      exact toSigned_emod v 8 (by norm_num; omega) (by norm_num; omega)
  | str s =>
    simp only [encField]
    split_ifs with h
    · simp [store_column, sample_field_type, sample_field_buffer, sample_field_length,
        rd8_append_cons, rd8_append_cons2, rdN_tiny]
    · have hs : s.length % 4294967296 = s.length := Nat.mod_eq_of_lt hf
      have hr := rdN_long a SAMPLE_STRING s.length s.length s b
      simp only [Nat.reduceAdd] at hr
      simp [store_column, sample_field_type, sample_field_buffer, sample_field_length,
        rd8_append_cons, rdLE_cons_leBytes, hs, hr]


theorem encRow_append (xs ys : List FieldVal) : encRow (xs ++ ys) = encRow xs ++ encRow ys := by
  induction xs with
  | nil => rfl
  | cons x xs ih => simp [encRow, ih]

theorem length_encRow_le (fs : List FieldVal) (hv : ∀ f ∈ fs, f.valid) :
    (encRow fs).length ≤ place_length fs := by
  induction fs with
  | nil => simp [encRow, place_length]
  | cons f fs ih =>
    have h1 := length_encField_le f (hv f (List.mem_cons_self _ _))
    have h2 := ih (fun g hg => hv g (List.mem_cons_of_mem _ hg))
    simp only [encRow, place_length, List.length_append]
    omega

/-- The loop of `sample_field` over `fs.length` encoded fields skips their encodings. -/
theorem sample_field_loop_enc (fs : List FieldVal) (a b : List Nat) (hv : ∀ f ∈ fs, f.valid)
    (hlt : a.length + (encRow fs).length < UINT_MOD) :
    sample_field_loop (a ++ (encRow fs ++ b)) fs.length a.length
      = .ok (a.length + (encRow fs).length) := by
  induction fs generalizing a with
  | nil => simp [sample_field_loop, encRow]
  | cons f fs ih =>
    simp only [encRow, List.length_append] at hlt
    have hf := hv f (List.mem_cons_self _ _)
    have hstep := sample_field_step_enc a f (encRow fs ++ b) hf (by omega)
    have hrest := ih (a ++ encField f) (fun g hg => hv g (List.mem_cons_of_mem _ hg))
      (by simp only [List.length_append]; omega)
    simp only [List.append_assoc, List.length_append] at hrest
    simp only [encRow, List.length_cons, sample_field_loop, List.append_assoc, hstep, hrest,
      List.length_append]
    congr 1
    omega

/-- The loop of `record_store` over `fs.length` encoded fields returns the fields. -/
theorem store_loop_enc (fs : List FieldVal) (a b : List Nat) (hv : ∀ f ∈ fs, f.valid) :
    store_loop (a ++ (encRow fs ++ b)) fs.length a.length = .ok (fs.map some) := by
  induction fs generalizing a with
  | nil => simp [store_loop]
  | cons f fs ih =>
    have hf := hv f (List.mem_cons_self _ _)
    have hcol := store_column_enc a f (encRow fs ++ b) hf
    have hw := sample_field_width_enc a f (encRow fs ++ b) hf
    have hrest := ih (a ++ encField f) (fun g hg => hv g (List.mem_cons_of_mem _ hg))
    simp only [List.append_assoc, List.length_append] at hrest
    simp only [encRow, List.length_cons, store_loop, List.append_assoc, hcol, hw, hrest,
      List.map_cons]

/-- The second loop of `record_place` appends the encodings of the remaining
fields to the encodings already written; the zero bytes of `calloc` follow. -/
theorem place_loop_enc (width : Nat) (fs done : List FieldVal) (m : Nat)
    (hd : ∀ f ∈ done, f.valid) (hv : ∀ f ∈ fs, f.valid)
    (hw : done.length + fs.length ≤ width) (hm : (encRow fs).length ≤ m)
    (hlt : (encRow done).length + (encRow fs).length < UINT_MOD) :
    place_loop width done.length fs (encRow done ++ List.replicate m 0)
      = .ok (encRow (done ++ fs) ++ List.replicate (m - (encRow fs).length) 0) := by
  induction fs generalizing done m with
  | nil => simp [place_loop, encRow]
  | cons f fs ih =>
    have hf := hv f (List.mem_cons_self _ _)
    simp only [encRow, List.length_append, List.length_cons] at hm hlt hw
    have hfield : sample_field width (encRow done ++ List.replicate m 0) done.length
        = .ok (encRow done).length := by
      have h := sample_field_loop_enc done [] (List.replicate m 0) hd
        (by simp only [List.length_nil]; omega)
      simp only [List.nil_append, List.length_nil, Nat.zero_add] at h
      have hlt2 : done.length < width := by omega
      simp only [sample_field, hlt2, if_true, h]
    have hwr := wr_replicate (encRow done) (encField f) m (by omega)
    have hrest := ih (done ++ [f]) (m - (encField f).length)
      (by
        intro g hg
        rcases List.mem_append.mp hg with h | h
        · exact hd g h
        · rw [List.mem_singleton.mp h]; exact hf)
      (fun g hg => hv g (List.mem_cons_of_mem _ hg))
      (by simp only [List.length_append, List.length_singleton]; omega)
      (by omega)
      (by simp only [encRow_append, encRow, List.append_nil, List.length_append]; omega)
    simp only [encRow_append, encRow, List.append_nil, List.length_append,
      List.length_singleton, List.append_assoc] at hrest
    simp only [place_loop, hfield, place_column_eq _ _ f hf, hwr, List.append_assoc, hrest,
      encRow_append, encRow, List.length_append]
    simp [Nat.sub_sub]


/-- The row built by `record_place`: the encodings of the fields in column
order, followed by the zero bytes left over from the allocation. -/
theorem record_place_enc (width : Nat) (fields : List FieldVal)
    (hw : fields.length ≤ width) (hv : ∀ f ∈ fields, f.valid)
    (hlt : place_length fields < UINT_MOD) :
    record_place width fields
      = .ok ⟨encRow fields ++ List.replicate (place_length fields - (encRow fields).length) 0,
          place_length fields⟩ := by
  have hle := length_encRow_le fields hv
  have h := place_loop_enc width fields [] (place_length fields) (by simp) hv
    (by simpa using hw) hle (by simp only [encRow, List.length_nil]; omega)
  simp only [encRow, List.nil_append, List.length_nil] at h
  simp only [record_place, h, Nat.mod_eq_of_lt hlt]

/-! ### A row of more than `2^32` bytes -/

theorem wr_one (p : List Nat) (x y : Nat) (q : List Nat) :
    wr (p ++ x :: q) p.length [y] = .ok (p ++ y :: q) := by
  simp [wr]

theorem leBytes_max : leBytes 4294967295 4 = [255, 255, 255, 255] := by decide

theorem wrap_enc (s : List Nat) (hs : s.length = 4294967295) :
    encField (.str s) = 5 :: 255 :: 255 :: 255 :: 255 :: 255 :: 255 :: 255 :: 255 :: s := by
  simp [encField, hs, leBytes_max]

theorem wrap_col0 (s : List Nat) (m : Nat) (hs : s.length = 4294967295)
    (hm : m = 4294967305) :
    place_column (List.replicate m 0) 0 (.str s) (place_measure (.str s)).2
      = .ok (5 :: 255 :: 255 :: 255 :: 255 :: 255 :: 255 :: 255 :: 255 :: (s ++ [0])) := by
  have hvalid : (FieldVal.str s).valid := by
    show s.length < UINT_MOD
    rw [hs]; decide
  have henc := wrap_enc s hs
  have hw1 := wr_replicate [] (encField (.str s)) m (by simp [henc, hs]; omega)
  have hl1 : m - (encField (.str s)).length = 1 := by simp [henc, hs]; omega
  rw [hl1, henc] at hw1
  simp only [List.nil_append, List.length_nil, List.cons_append] at hw1
  have hone : List.replicate 1 0 = [0] := rfl
  rw [hone] at hw1
  rw [place_column_eq _ _ _ hvalid, henc, hw1]

theorem wrap_step (s : List Nat) :
    sample_field_step
      (5 :: 255 :: 255 :: 255 :: 255 :: 255 :: 255 :: 255 :: 255 :: (s ++ [0])) 0 = .ok 8 := by
  have h2 := rdLE_cons_leBytes [] 5 4294967295 4 (leBytes 4294967295 4 ++ (s ++ [0]))
  rw [leBytes_max] at h2
  simp only [List.nil_append, List.length_nil, List.cons_append, Nat.zero_add] at h2
  simp [sample_field_step, rd8, h2, UINT_MOD]

theorem wrap_field1 (s : List Nat) :
    sample_field 2
      (5 :: 255 :: 255 :: 255 :: 255 :: 255 :: 255 :: 255 :: 255 :: (s ++ [0])) 1 = .ok 8 := by
  have h : sample_field_loop
      (5 :: 255 :: 255 :: 255 :: 255 :: 255 :: 255 :: 255 :: 255 :: (s ++ [0])) (0 + 1) 0
      = .ok 8 := by
    rw [sample_field_loop, wrap_step]
    rfl
  rw [sample_field, if_pos (by decide)]
  exact h

theorem wrap_col1 (s : List Nat) :
    place_column
      (5 :: 255 :: 255 :: 255 :: 255 :: 255 :: 255 :: 255 :: 255 :: (s ++ [0])) 8 .null
        (place_measure .null).2
      = .ok (5 :: 255 :: 255 :: 255 :: 255 :: 255 :: 255 :: 255 :: 1 :: (s ++ [0])) := by
  have hw2 := wr_one [5, 255, 255, 255, 255, 255, 255, 255] 255 1 (s ++ [0])
  simp only [List.cons_append, List.nil_append, List.length_cons, List.length_nil,
    Nat.zero_add, Nat.reduceAdd] at hw2
  simp only [place_column, FieldVal.is_null, if_true, hw2]

theorem wrap_field0 (m : Nat) : sample_field 2 (List.replicate m 0) 0 = .ok 0 := by
  simp [sample_field, sample_field_loop]

theorem place_loop_cons (width col : Nat) (f : FieldVal) (rest : List FieldVal)
    (buffer : List Nat) (buff : Nat) (buffer2 : List Nat)
    (h1 : sample_field width buffer col = .ok buff)
    (h2 : place_column buffer buff f (place_measure f).2 = .ok buffer2) :
    place_loop width col (f :: rest) buffer = place_loop width (col + 1) rest buffer2 := by
  rw [place_loop, h1]
  simp only []
  rw [h2]

theorem wrap_place_loop (s : List Nat) (m : Nat) (hs : s.length = 4294967295)
    (hm : m = 4294967305) :
    place_loop 2 0 [.str s, .null] (List.replicate m 0)
      = .ok (5 :: 255 :: 255 :: 255 :: 255 :: 255 :: 255 :: 255 :: 1 :: (s ++ [0])) := by
  rw [place_loop_cons 2 0 _ _ _ _ _ (wrap_field0 m) (wrap_col0 s m hs hm)]
  rw [place_loop_cons 2 (0 + 1) _ _ _ _ _ (wrap_field1 s) (wrap_col1 s)]
  rfl

theorem record_place_of_loop (width : Nat) (fields : List FieldVal) (buffer : List Nat)
    (h : place_loop width 0 fields (List.replicate (place_length fields) 0) = .ok buffer) :
    record_place width fields = .ok ⟨buffer, place_length fields % UINT_MOD⟩ := by
  simp only [record_place, h]

theorem wrap_store_loop (s : List Nat) (hs : s.length = 4294967295) :
    store_loop (5 :: 255 :: 255 :: 255 :: 255 :: 255 :: 255 :: 255 :: 1 :: (s ++ [0])) 2 0
      = .ok [some (.str s), none] := by
  have hle : leBytes 4294967295 4 = [255, 255, 255, 255] := by decide
  have h0 : rd8 (5 :: 255 :: 255 :: 255 :: 255 :: 255 :: 255 :: 255 :: 1 :: (s ++ [0])) 0
      = .ok 5 := by simp [rd8]
  have hlen : rdLE (5 :: 255 :: 255 :: 255 :: 255 :: 255 :: 255 :: 255 :: 1 :: (s ++ [0])) 1 4
      = .ok 4294967295 := by
    have h2 := rdLE_cons_leBytes [] 5 4294967295 4 ([255, 255, 255, 1] ++ (s ++ [0]))
    rw [hle] at h2
    simp only [List.nil_append, List.length_nil, List.cons_append, Nat.zero_add] at h2
    simpa using h2
  have hpay : rdN (5 :: 255 :: 255 :: 255 :: 255 :: 255 :: 255 :: 255 :: 1 :: (s ++ [0])) 9
      4294967295 = .ok s := by
    have h := rdN_append [5, 255, 255, 255, 255, 255, 255, 255, 1] s [0]
    rw [hs] at h
    simpa using h
  have hend : rd8 (5 :: 255 :: 255 :: 255 :: 255 :: 255 :: 255 :: 255 :: 1 :: (s ++ [0]))
      4294967304 = .ok 0 := by
    have h := rd8_append_right [5, 255, 255, 255, 255, 255, 255, 255, 1] (s ++ [0]) 4294967295
    have h2 := rd8_append_cons s 0 []
    rw [hs] at h2
    rw [h2] at h
    simpa using h
  have hc0 : store_column (5 :: 255 :: 255 :: 255 :: 255 :: 255 :: 255 :: 255 :: 1 :: (s ++ [0])) 0
      = .ok (some (.str s)) := by
    simp [store_column, sample_field_type, sample_field_buffer, sample_field_length, h0, hlen,
      hpay]
  have hw0 : sample_field_width
      (5 :: 255 :: 255 :: 255 :: 255 :: 255 :: 255 :: 255 :: 1 :: (s ++ [0])) 0
      = .ok 4294967304 := by
    simp [sample_field_width, h0, hlen]
  have hc1 : store_column
      (5 :: 255 :: 255 :: 255 :: 255 :: 255 :: 255 :: 255 :: 1 :: (s ++ [0])) 4294967304
      = .ok none := by
    simp [store_column, sample_field_type, sample_field_buffer, sample_field_length, hend]
  have hw1 : sample_field_width
      (5 :: 255 :: 255 :: 255 :: 255 :: 255 :: 255 :: 255 :: 1 :: (s ++ [0])) 4294967304
      = .ok 1 := by
    simp [sample_field_width, hend]
  simp only [store_loop, hc0, hw0, Nat.zero_add, hc1, hw1]


/-- A string of `2^32 - 1` bytes followed by a null column: the 32-bit offset of
`sample_field` wraps to 8, the null tag lands in the header of the string and the
decoder finds no tag for the second column. -/
theorem wrap_record (s : List Nat) (hs : s.length = 4294967295) :
    record_place 2 [.str s, .null]
        = .ok ⟨5 :: 255 :: 255 :: 255 :: 255 :: 255 :: 255 :: 255 :: 1 :: (s ++ [0]), 9⟩ ∧
      record_store 2
          (some ⟨5 :: 255 :: 255 :: 255 :: 255 :: 255 :: 255 :: 255 :: 1 :: (s ++ [0]), 9⟩)
        = .ok (0, [some (.str s), none]) := by
  have hlen : place_length [.str s, .null] = 4294967305 := by
    simp [place_length, place_measure, FieldVal.is_null, FieldVal.is_int_result,
      FieldVal.val_str, hs]
  constructor
  · have h := wrap_place_loop s (place_length [.str s, .null]) hs hlen
    have h9 : 4294967305 % UINT_MOD = 9 := by decide
    rw [record_place_of_loop 2 _ _ h, hlen, h9]
  · simp only [record_store, wrap_store_loop s hs]

theorem length_bigString : bigString.length = 4294967295 := List.length_replicate _ _


theorem wrap_width_walk (s : List Nat) (hs : s.length = 4294967295) :
    width_walk (5 :: 255 :: 255 :: 255 :: 255 :: 255 :: 255 :: 255 :: 1 :: (s ++ [0])) 2 0
      = .ok 4294967305 := by
  have h0 : rd8 (5 :: 255 :: 255 :: 255 :: 255 :: 255 :: 255 :: 255 :: 1 :: (s ++ [0])) 0
      = .ok 5 := by simp [rd8]
  have hlen : rdLE (5 :: 255 :: 255 :: 255 :: 255 :: 255 :: 255 :: 255 :: 1 :: (s ++ [0])) 1 4
      = .ok 4294967295 := by
    have h2 := rdLE_cons_leBytes [] 5 4294967295 4 ([255, 255, 255, 1] ++ (s ++ [0]))
    rw [leBytes_max] at h2
    simp only [List.nil_append, List.length_nil, List.cons_append, Nat.zero_add] at h2
    simpa using h2
  have hend : rd8 (5 :: 255 :: 255 :: 255 :: 255 :: 255 :: 255 :: 255 :: 1 :: (s ++ [0]))
      4294967304 = .ok 0 := by
    have h := rd8_append_right [5, 255, 255, 255, 255, 255, 255, 255, 1] (s ++ [0]) 4294967295
    have h2 := rd8_append_cons s 0 []
    rw [hs] at h2
    rw [h2] at h
    simpa using h
  have hw0 : sample_field_width
      (5 :: 255 :: 255 :: 255 :: 255 :: 255 :: 255 :: 255 :: 1 :: (s ++ [0])) 0
      = .ok 4294967304 := by
    simp [sample_field_width, h0, hlen]
  have hw1 : sample_field_width
      (5 :: 255 :: 255 :: 255 :: 255 :: 255 :: 255 :: 255 :: 1 :: (s ++ [0])) 4294967304
      = .ok 1 := by
    simp [sample_field_width, hend]
  simp only [width_walk, hw0, Nat.zero_add, hw1]

/-! ### Reads of the decoder -/

theorem rd8_ok_lt (b : List Nat) (off x : Nat) (h : rd8 b off = .ok x) : off < b.length := by
  unfold rd8 at h
  cases hget : b[off]? with
  | none => rw [hget] at h; cases h
  | some y => exact (List.getElem?_eq_some_iff.mp hget).1

theorem rd8_error (b : List Nat) (off : Nat) (e : Fault) (h : rd8 b off = .error e) :
    e = .outOfBounds := by
  unfold rd8 at h
  cases hget : b[off]? with
  | none => rw [hget] at h; cases h; rfl
  | some y => rw [hget] at h; cases h

theorem rdLE_error (b : List Nat) (off n : Nat) (e : Fault) (h : rdLE b off n = .error e) :
    e = .outOfBounds := by
  induction n generalizing off e with
  | zero => cases h
  | succ n ih =>
    unfold rdLE at h
    cases h1 : rd8 b off with
    | error e1 =>
      rw [h1] at h
      cases h
      exact rd8_error b off _ h1
    | ok x =>
      rw [h1] at h
      cases h2 : rdLE b (off + 1) n with
      | error e2 =>
        rw [h2] at h
        cases h
        exact ih _ _ h2
      | ok r => rw [h2] at h; cases h

theorem rdN_error (b : List Nat) (off n : Nat) (e : Fault) (h : rdN b off n = .error e) :
    e = .outOfBounds := by
  unfold rdN at h
  split_ifs at h
  cases h
  rfl

theorem sample_field_width_error (b : List Nat) (off : Nat) (e : Fault)
    (h : sample_field_width b off = .error e) : e = .outOfBounds := by
  unfold sample_field_width at h
  cases h1 : rd8 b off with
  | error e1 =>
    rw [h1] at h
    cases h
    exact rd8_error b off _ h1
  | ok type =>
    rw [h1] at h
    simp only at h
    split_ifs at h
    · cases h2 : rdLE b (off + 1) 4 with
      | error e2 => rw [h2] at h; cases h; exact rdLE_error _ _ _ _ h2
      | ok l => rw [h2] at h; cases h
    · cases h2 : rd8 b (off + 1) with
      | error e2 => rw [h2] at h; cases h; exact rd8_error _ _ _ h2
      | ok l => rw [h2] at h; cases h

theorem sample_field_width_ok (b : List Nat) (off w : Nat)
    (h : sample_field_width b off = .ok w) : off < b.length ∧ 1 ≤ w := by
  unfold sample_field_width at h
  cases h1 : rd8 b off with
  | error e1 => rw [h1] at h; cases h
  | ok type =>
    refine ⟨rd8_ok_lt b off type h1, ?_⟩
    rw [h1] at h
    simp only at h
    split_ifs at h
    · cases h; omega
    · cases h2 : rdLE b (off + 1) 4 with
      | error e2 => rw [h2] at h; cases h
      | ok l => rw [h2] at h; cases h; omega
    · cases h2 : rd8 b (off + 1) with
      | error e2 => rw [h2] at h; cases h
      | ok l => rw [h2] at h; cases h; omega
    all_goals (cases h; omega)

theorem store_column_error (b : List Nat) (off : Nat) (e : Fault)
    (h : store_column b off = .error e) : e = .outOfBounds := by
  unfold store_column sample_field_type sample_field_buffer sample_field_length at h
  cases h1 : rd8 b off with
  | error e1 =>
    rw [h1] at h
    cases h
    exact rd8_error b off _ h1
  | ok type =>
    rw [h1] at h
    simp only at h
    split at h
    · rename_i e2 h2
      split_ifs at h2
    · rename_i buffer h2
      split at h
      · rename_i e3 h3
        cases h
        split_ifs at h3
        · exact rdLE_error _ _ _ _ h3
        · exact rd8_error _ _ _ h3
      · rename_i length h3
        split_ifs at h
        · split at h
          · rename_i e4 h4; cases h; exact rdN_error _ _ _ _ h4
          · cases h
        · split at h
          · rename_i e4 h4; cases h; exact rdLE_error _ _ _ _ h4
          · cases h
        · split at h
          · rename_i e4 h4; cases h; exact rdLE_error _ _ _ _ h4
          · cases h
        · split at h
          · rename_i e4 h4; cases h; exact rdLE_error _ _ _ _ h4
          · cases h

theorem store_loop_error (b : List Nat) (n off : Nat) (e : Fault)
    (h : store_loop b n off = .error e) : e = .outOfBounds := by
  induction n generalizing off with
  | zero => cases h
  | succ n ih =>
    unfold store_loop at h
    split at h
    · rename_i e1 h1; cases h; exact store_column_error _ _ _ h1
    · split at h
      · rename_i e2 h2; cases h; exact sample_field_width_error _ _ _ h2
      · split at h
        · rename_i e3 h3; cases h; exact ih _ h3
        · cases h

theorem store_loop_ok (b : List Nat) (n off : Nat) (vs : List (Option FieldVal))
    (h : store_loop b n off = .ok vs) : (0 < n → off + n ≤ b.length) ∧ vs.length = n := by
  induction n generalizing off vs with
  | zero =>
    cases h
    exact ⟨fun h0 => absurd h0 (Nat.lt_irrefl 0), rfl⟩
  | succ n ih =>
    unfold store_loop at h
    split at h
    · cases h
    · split at h
      · cases h
      · rename_i w hw
        split at h
        · cases h
        · rename_i vs2 h3
          cases h
          have h4 := ih _ _ h3
          have h5 := sample_field_width_ok _ _ _ hw
          refine ⟨fun _ => ?_, by simp [h4.2]⟩
          rcases Nat.eq_zero_or_pos n with h0 | h0
          · omega
          · have := h4.1 h0
            omega

/-- One step of `sample_field` advances by `sample_field_width` as long as the
offset stays below `2^32`. -/
theorem sample_field_step_width (b : List Nat) (off w : Nat)
    (hw : sample_field_width b off = .ok w) (hlt : off + w < UINT_MOD) :
    sample_field_step b off = .ok (off + w) := by
  unfold sample_field_width at hw
  unfold sample_field_step
  cases h1 : rd8 b off with
  | error e1 => rw [h1] at hw; cases hw
  | ok type =>
    rw [h1] at hw
    have hge := (sample_field_width_ok b off w (by unfold sample_field_width; rw [h1]; exact hw)).2
    simp only [UINT_MOD] at hlt
    have hm : (off + 1) % UINT_MOD = off + 1 := Nat.mod_eq_of_lt (by simp only [UINT_MOD]; omega)
    simp only [hm] at hw ⊢
    split_ifs at hw ⊢
    · cases hw; rfl
    · cases h2 : rdLE b (off + 1) 4 with
      | error e2 => rw [h2] at hw; cases hw
      | ok l =>
        rw [h2] at hw
        cases hw
        simp only []
        congr 1
        rw [Nat.mod_eq_of_lt (by simp only [UINT_MOD]; omega)]
        omega
    · cases h2 : rd8 b (off + 1) with
      | error e2 => rw [h2] at hw; cases hw
      | ok l =>
        rw [h2] at hw
        cases hw
        simp only []
        congr 1
        rw [Nat.mod_eq_of_lt (by simp only [UINT_MOD]; omega)]
        omega
    · cases hw
      exact congrArg Res.ok (by simp only [UINT_MOD]; omega)
    · cases hw
      exact congrArg Res.ok (by simp only [UINT_MOD]; omega)
    · cases hw
      exact congrArg Res.ok (by simp only [UINT_MOD]; omega)
    · cases hw; rfl

theorem width_walk_ge (b : List Nat) (k off r : Nat) (h : width_walk b k off = .ok r) :
    off ≤ r := by
  induction k generalizing off with
  | zero => cases h; exact Nat.le_refl _
  | succ k ih =>
    unfold width_walk at h
    split at h
    · cases h
    · have := ih _ h
      omega

/-- The loop of `sample_field` follows the walk along `sample_field_width` as
long as the offsets stay below `2^32`. -/
theorem sample_field_loop_walk (b : List Nat) (k off r : Nat)
    (h : width_walk b k off = .ok r) (hlt : r < UINT_MOD) :
    sample_field_loop b k off = .ok r := by
  induction k generalizing off with
  | zero => cases h; rfl
  | succ k ih =>
    unfold width_walk at h
    split at h
    · cases h
    · rename_i w hw
      have hge := width_walk_ge _ _ _ _ h
      have hs := sample_field_step_width b off w hw (by omega)
      unfold sample_field_loop
      rw [hs]
      exact ih _ h

/-- The walk along `sample_field_width` over encoded fields skips their encodings. -/
theorem width_walk_enc (fs : List FieldVal) (a b : List Nat) (hv : ∀ f ∈ fs, f.valid) :
    width_walk (a ++ (encRow fs ++ b)) fs.length a.length
      = .ok (a.length + (encRow fs).length) := by
  induction fs generalizing a with
  | nil => simp [width_walk, encRow]
  | cons f fs ih =>
    have hf := hv f (List.mem_cons_self _ _)
    have hw := sample_field_width_enc a f (encRow fs ++ b) hf
    have hrest := ih (a ++ encField f) (fun g hg => hv g (List.mem_cons_of_mem _ hg))
    simp only [List.append_assoc, List.length_append] at hrest
    simp only [encRow, List.length_cons, width_walk, List.append_assoc, hw, hrest,
      List.length_append, Nat.add_assoc]

/-- A one-column row: the encoding of the field, then the zero bytes left over
from the allocation. -/
theorem record_place_single (f : FieldVal) (hf : f.valid) :
    record_place 1 [f]
      = .ok ⟨encField f ++ List.replicate ((place_measure f).1 - (encField f).length) 0,
          (place_measure f).1 % UINT_MOD⟩ := by
  have hle := length_encField_le f hf
  have hwr := wr_replicate [] (encField f) (place_measure f).1 hle
  simp only [List.nil_append, List.length_nil] at hwr
  have h0 : sample_field 1 (List.replicate (place_measure f).1 0) 0 = .ok 0 := by
    simp [sample_field, sample_field_loop]
  have hloop : place_loop 1 0 [f] (List.replicate (place_length [f]) 0)
      = .ok (encField f ++ List.replicate ((place_measure f).1 - (encField f).length) 0) := by
    have hl : place_length [f] = (place_measure f).1 := by simp [place_length]
    rw [hl, place_loop_cons 1 0 f [] _ 0 _ h0 (by rw [place_column_eq _ _ f hf]; exact hwr)]
    rfl
  rw [record_place_of_loop 1 _ _ hloop]
  simp [place_length]

/-! ## The row codec: claims -/

/-- C1 (as stated) fails: the two-column row made of a string of `2^32 - 1` bytes
and a null is in the stated domain (a string shorter than `2^32`, as many values
as the table has columns), and decoding its encoding does not give the row back:
the `uint offset` of `sample_field` wraps, the null tag of the second column lands
at offset 8, inside the header of the string, and the decoder finds the zero byte
of `calloc` where the tag of the second column should be. -/
theorem record_roundtrip_counterexample :
    (∀ f ∈ [FieldVal.str bigString, FieldVal.null], f.valid) ∧
    [FieldVal.str bigString, FieldVal.null].length = 2 ∧
    record_place 2 [FieldVal.str bigString, FieldVal.null]
      = .ok ⟨5 :: 255 :: 255 :: 255 :: 255 :: 255 :: 255 :: 255 :: 1 :: (bigString ++ [0]), 9⟩ ∧
    record_store 2
        (some ⟨5 :: 255 :: 255 :: 255 :: 255 :: 255 :: 255 :: 255 :: 1 :: (bigString ++ [0]), 9⟩)
      = .ok (0, [some (FieldVal.str bigString), none]) ∧
    [some (FieldVal.str bigString), none]
      ≠ [FieldVal.str bigString, FieldVal.null].map some := by
  obtain ⟨hp, hs⟩ := wrap_record bigString length_bigString
  refine ⟨?_, rfl, hp, hs, ?_⟩
  · intro f hf
    rcases List.mem_cons.mp hf with h | h
    · rw [h]
      show bigString.length < UINT_MOD
      rw [length_bigString]
      decide
    · rw [List.mem_singleton.mp h]
      trivial
  · intro h
    simp at h

/-- C1 (amended): for every list of field values (null, a signed 64-bit integer,
a byte string shorter than `2^32`) with as many values as the table has columns,
and whose row needs fewer than `2^32` bytes as computed by the first loop of
`record_place`, `record_place` returns a row and `record_store` decodes that row
with return code 0 into the same values, column by column. -/
theorem record_roundtrip (width : Nat) (fields : List FieldVal)
    (hw : fields.length = width) (hv : ∀ f ∈ fields, f.valid)
    (hlt : place_length fields < UINT_MOD) :
    ∃ row, record_place width fields = .ok row ∧
      record_store width (some row) = .ok (0, fields.map some) := by
  refine ⟨_, record_place_enc width fields (le_of_eq hw) hv hlt, ?_⟩
  have h := store_loop_enc fields []
    (List.replicate (place_length fields - (encRow fields).length) 0) hv
  simp only [List.nil_append, List.length_nil, hw] at h
  simp only [record_store, h]

set_option maxRecDepth 1000000 in
/-- Witness of C1: a row with a null, the boundary integers, integers beyond the
32-bit range and strings of length 0, 1, 255 and 256. -/
theorem record_roundtrip_witness :
    ∃ row,
      record_place 13
          [.null, .int (-128), .int 127, .int (-129), .int 2147483647, .int (-2147483648),
            .int 2147483648, .int 9223372036854775807, .int (-9223372036854775808),
            .str [], .str [97], .str (List.replicate 255 7), .str (List.replicate 256 9)]
        = .ok row ∧
      record_store 13 (some row)
        = .ok (0,
          [FieldVal.null, .int (-128), .int 127, .int (-129), .int 2147483647,
            .int (-2147483648), .int 2147483648, .int 9223372036854775807,
            .int (-9223372036854775808),
            .str [], .str [97], .str (List.replicate 255 7), .str (List.replicate 256 9)].map
            some) :=
  record_roundtrip 13 _ (by decide) (by decide) (by decide)

/-- C5 (as stated) fails: `-128` fits in a signed 8-bit integer and is encoded with
the 32-bit tag and a 4-byte payload; `2147483647` and `-2147483648` fit in a signed
32-bit integer and are encoded with the 64-bit tag and an 8-byte payload. -/
theorem int_tag_counterexample :
    ((-128 : Int) ≤ -128 ∧ (-128 : Int) ≤ 127) ∧
    record_place 1 [.int (-128)]
      = .ok ⟨[SAMPLE_INT32, 128, 255, 255, 255, 0, 0, 0, 0], 9⟩ ∧
    ((-2147483648 : Int) ≤ 2147483647 ∧ (2147483647 : Int) ≤ 2147483647) ∧
    record_place 1 [.int 2147483647]
      = .ok ⟨[SAMPLE_INT64, 255, 255, 255, 127, 0, 0, 0, 0], 9⟩ ∧
    record_place 1 [.int (-2147483648)]
      = .ok ⟨[SAMPLE_INT64, 0, 0, 0, 128, 255, 255, 255, 255], 9⟩ := by
  decide

/-- C5 (amended): for every non-null integer value `v`, the second loop of
`record_place` stores the 8-bit tag and a 1-byte payload if and only if
`-128 < v < 128`, otherwise the 32-bit tag and a 4-byte payload if and only if
`INT_MIN < v < INT_MAX` (both bounds excluded), and otherwise the 64-bit tag and
an 8-byte payload; the row of a one-column table is that field, followed by four
unused zero bytes when the 32-bit tag was chosen (the first loop counts 8 payload
bytes for every integer outside the 8-bit range). -/
theorem int_tag_classification (v : Int) (hv : (FieldVal.int v).valid) :
    (∀ (buffer : List Nat) (buff : Nat),
      place_column buffer buff (.int v) (place_measure (.int v)).2
        = wr buffer buff
            (if -128 < v ∧ v < 128 then SAMPLE_INT08 :: intBytes v 1
             else if INT_MIN < v ∧ v < INT_MAX then SAMPLE_INT32 :: intBytes v 4
             else SAMPLE_INT64 :: intBytes v 8)) ∧
    (intBytes v 1).length = 1 ∧ (intBytes v 4).length = 4 ∧ (intBytes v 8).length = 8 ∧
    record_place 1 [.int v]
      = .ok (if -128 < v ∧ v < 128 then ⟨SAMPLE_INT08 :: intBytes v 1, 2⟩
             else if INT_MIN < v ∧ v < INT_MAX then
               ⟨SAMPLE_INT32 :: (intBytes v 4 ++ [0, 0, 0, 0]), 9⟩
             else ⟨SAMPLE_INT64 :: intBytes v 8, 9⟩) := by
  have henc : encField (.int v)
      = (if -128 < v ∧ v < 128 then SAMPLE_INT08 :: intBytes v 1
         else if INT_MIN < v ∧ v < INT_MAX then SAMPLE_INT32 :: intBytes v 4
         else SAMPLE_INT64 :: intBytes v 8) := by
    simp only [encField]
    by_cases h1 : -128 < v ∧ v < 128
    · rw [if_pos h1, if_pos ⟨h1.2, h1.1⟩]
    · rw [if_neg h1, if_neg (fun h => h1 ⟨h.2, h.1⟩)]
      by_cases h2 : INT_MIN < v ∧ v < INT_MAX
      · rw [if_pos h2, if_pos ⟨h2.2, h2.1⟩]
      · rw [if_neg h2, if_neg (fun h => h2 ⟨h.2, h.1⟩)]
  refine ⟨?_, length_intBytes v 1, length_intBytes v 4, length_intBytes v 8, ?_⟩
  · intro buffer buff
    rw [place_column_eq buffer buff _ hv, henc]
  · rw [record_place_single _ hv, henc]
    have hm : (place_measure (.int v)).1 = if -128 < v ∧ v < 128 then 2 else 9 := by
      simp only [place_measure, FieldVal.is_null, FieldVal.is_int_result, FieldVal.val_int]
      by_cases h1 : -128 < v ∧ v < 128
      · rw [if_pos h1]
        simp [h1.1, h1.2]
      · rw [if_neg h1]
        have h1b : ¬ (v < 128 ∧ v > -128) := fun h => h1 ⟨h.2, h.1⟩
        simp [h1b]
    rw [hm]
    by_cases h1 : -128 < v ∧ v < 128
    · simp [h1, length_intBytes]
    · by_cases h2 : INT_MIN < v ∧ v < INT_MAX
      · simp only [if_neg h1, if_pos h2, List.length_cons, length_intBytes]
        rfl
      · simp only [if_neg h1, if_neg h2, List.length_cons, length_intBytes]
        simp

/-- Witness of C5: the value 1000 gets the 32-bit tag. -/
theorem int_tag_classification_witness :
    (FieldVal.int 1000).valid ∧
    record_place 1 [.int 1000] = .ok ⟨SAMPLE_INT32 :: (intBytes 1000 4 ++ [0, 0, 0, 0]), 9⟩ :=
  ⟨by decide, (int_tag_classification 1000 (by decide)).2.2.2.2⟩

/-- C6 (divergence of the code): for the one-column row holding the integer 1000
the first loop of `record_place` counts `1 + 8` bytes, so `row->length` is 9, while
the second loop writes the 32-bit tag and 4 payload bytes: the walk of
`sample_field_width` over the one field ends at offset 5, not at `row->length`. -/
theorem row_length_overcount :
    record_place 1 [.int 1000] = .ok ⟨[SAMPLE_INT32, 232, 3, 0, 0, 0, 0, 0, 0], 9⟩ ∧
    width_walk [SAMPLE_INT32, 232, 3, 0, 0, 0, 0, 0, 0] 1 0 = .ok 5 ∧
    (5 : Nat) ≠ 9 := by
  decide

/-- C7: for every non-null byte string `s` (its length fits the `uint32` of
`String::length()`), the second loop of `record_place` stores the short-string tag,
one length byte equal to `|s|` and the bytes of `s` if and only if `|s| < 256`, and
otherwise the long-string tag, two 4-byte little-endian length fields that both
read back as `|s|`, and the bytes of `s`; the row of a one-column table is exactly
that field. -/
theorem string_classification (s : List Nat) (hs : s.length < UINT_MOD) :
    (∀ (buffer : List Nat) (buff : Nat),
      place_column buffer buff (.str s) (place_measure (.str s)).2
        = wr buffer buff
            (if s.length < 256 then SAMPLE_TINYSTRING :: s.length :: s
             else SAMPLE_STRING :: (leBytes s.length 4 ++ (leBytes s.length 4 ++ s)))) ∧
    (leBytes s.length 4).length = 4 ∧
    rdLE (leBytes s.length 4) 0 4 = .ok s.length ∧
    record_place 1 [.str s]
      = .ok (if s.length < 256 then ⟨SAMPLE_TINYSTRING :: s.length :: s, s.length + 2⟩
             else ⟨SAMPLE_STRING :: (leBytes s.length 4 ++ (leBytes s.length 4 ++ s)),
               (s.length + 9) % UINT_MOD⟩) := by
  have hv : (FieldVal.str s).valid := hs
  have henc : encField (.str s)
      = (if s.length < 256 then SAMPLE_TINYSTRING :: s.length :: s
         else SAMPLE_STRING :: (leBytes s.length 4 ++ (leBytes s.length 4 ++ s))) := rfl
  refine ⟨?_, length_leBytes _ _, ?_, ?_⟩
  · intro buffer buff
    rw [place_column_eq buffer buff _ hv, henc]
  · have h := rdLE_leBytes [] s.length 4 []
    simp only [List.nil_append, List.length_nil, List.append_nil] at h
    rw [h]
    congr 1
    exact Nat.mod_eq_of_lt hs
  · rw [record_place_single _ hv, henc]
    have hm : s.length % UINT_MOD = s.length := Nat.mod_eq_of_lt hs
    by_cases h1 : s.length < 256
    · have h2 : (s.length + 2) % UINT_MOD = s.length + 2 :=
        Nat.mod_eq_of_lt (by simp only [UINT_MOD]; omega)
      simp [place_measure, FieldVal.is_null, FieldVal.is_int_result, FieldVal.val_str, hm, h1]
      simp only [UINT_MOD] at hs h2 ⊢
      omega
    · simp [place_measure, FieldVal.is_null, FieldVal.is_int_result, FieldVal.val_str, hm, h1,
        length_leBytes]
      simp only [UINT_MOD] at hs ⊢
      omega

set_option maxRecDepth 1000000 in
/-- Witness of C7: a string of 2 bytes and a string of 256 bytes. -/
theorem string_classification_witness :
    record_place 1 [.str [97, 98]] = .ok ⟨[SAMPLE_TINYSTRING, 2, 97, 98], 4⟩ ∧
    record_place 1 [.str (List.replicate 256 7)]
      = .ok ⟨SAMPLE_STRING :: 0 :: 1 :: 0 :: 0 :: 0 :: 1 :: 0 :: 0 :: List.replicate 256 7,
          265⟩ :=
  ⟨(string_classification [97, 98] (by decide)).2.2.2,
    (string_classification (List.replicate 256 7) (by decide)).2.2.2⟩

/-- C8 (as stated) fails: `record_store` has no format error. With one column and
an empty buffer, or with two columns and a buffer holding one 8-bit integer field,
the buffer is exhausted before `width` tags have been read, and the decoder reads
the missing tag outside the buffer (undefined behaviour in C, the fault
`outOfBounds` here) instead of returning an error code. -/
theorem record_store_short_buffer_counterexample :
    record_store 1 (some ⟨[], 0⟩) = .error .outOfBounds ∧
    width_walk [SAMPLE_INT08, 5] 1 0 = .ok 2 ∧
    record_store 2 (some ⟨[SAMPLE_INT08, 5], 2⟩) = .error .outOfBounds := by
  decide

/-- C8 (amended): `record_store` performs no bounds check and has no format error.
For a non-null row it either reads outside the buffer (the only fault it can
raise), or returns 0 after storing `width` columns, and the latter needs a buffer
of at least `width` bytes; a buffer shorter than `width` bytes is always read out
of bounds. The only non-zero return code is `HA_ERR_END_OF_FILE`, for a null row. -/
theorem record_store_unchecked (width : Nat) (row : SampleRow) :
    (∀ rc vs, record_store width (some row) = .ok (rc, vs) →
      rc = 0 ∧ vs.length = width ∧ width ≤ row.buffer.length) ∧
    (∀ e, record_store width (some row) = .error e → e = .outOfBounds) ∧
    (row.buffer.length < width → record_store width (some row) = .error .outOfBounds) ∧
    record_store width none = .ok (HA_ERR_END_OF_FILE, []) := by
  have hok : ∀ rc vs, record_store width (some row) = .ok (rc, vs) →
      rc = 0 ∧ vs.length = width ∧ width ≤ row.buffer.length := by
    intro rc vs h
    simp only [record_store] at h
    split at h
    · cases h
    · rename_i vs2 h2
      cases h
      have h3 := store_loop_ok _ _ _ _ h2
      refine ⟨rfl, h3.2, ?_⟩
      rcases Nat.eq_zero_or_pos width with h0 | h0
      · omega
      · have := h3.1 h0
        omega
  have herr : ∀ e, record_store width (some row) = .error e → e = .outOfBounds := by
    intro e h
    simp only [record_store] at h
    split at h
    · rename_i e2 h2
      cases h
      exact store_loop_error _ _ _ _ h2
    · cases h
  refine ⟨hok, herr, ?_, rfl⟩
  intro hshort
  cases h : record_store width (some row) with
  | ok r =>
    obtain ⟨rc, vs⟩ := r
    have := (hok rc vs h).2.2
    omega
  | error e => rw [herr e h]

/-- Witness of C8: three columns asked from a two-byte buffer. -/
theorem record_store_unchecked_witness :
    record_store 3 (some ⟨[SAMPLE_NULL, SAMPLE_NULL], 2⟩) = .error .outOfBounds :=
  (record_store_unchecked 3 ⟨[SAMPLE_NULL, SAMPLE_NULL], 2⟩).2.2.1 (by decide)

/-- C21: one iteration of the loop of `sample_field` advances by
`sample_field_width` for every tag value (an unknown tag included) as long as the
offset stays below `2^32`; hence, for a row whose first `k` fields can be walked
with `sample_field_width` (every read inside the buffer) up to an offset below
`2^32`, and `k < width`, `sample_field(table, row, k)` returns that offset; for
`k = 0` the offset is 0. -/
theorem sample_field_eq_width_walk (width : Nat) (row : List Nat) (k off : Nat)
    (hk : k < width) (hwalk : width_walk row k 0 = .ok off) (hlt : off < UINT_MOD) :
    sample_field width row k = .ok off ∧
    sample_field width row 0 = .ok 0 ∧
    (∀ p w, sample_field_width row p = .ok w → p + w < UINT_MOD →
      sample_field_step row p = .ok (p + w)) := by
  refine ⟨?_, ?_, fun p w h1 h2 => sample_field_step_width row p w h1 h2⟩
  · rw [sample_field, if_pos hk]
    exact sample_field_loop_walk row k 0 off hwalk hlt
  · rw [sample_field, if_pos (by omega)]
    rfl

/-- Witness of C21: an 8-bit integer, a short string, a byte that is no tag, a
null; the fourth column starts at offset 6. -/
theorem sample_field_eq_width_walk_witness :
    width_walk [SAMPLE_INT08, 5, SAMPLE_TINYSTRING, 1, 97, 9, SAMPLE_NULL] 3 0 = .ok 6 ∧
    sample_field 4 [SAMPLE_INT08, 5, SAMPLE_TINYSTRING, 1, 97, 9, SAMPLE_NULL] 3 = .ok 6 :=
  ⟨by decide,
    (sample_field_eq_width_walk 4 [SAMPLE_INT08, 5, SAMPLE_TINYSTRING, 1, 97, 9, SAMPLE_NULL]
      3 6 (by decide) (by decide) (by decide)).1⟩

/-- C23 (as stated) fails: for the two-column row made of a string of `2^32 - 1`
bytes and a null, `record_place` allocates `2^32 + 9` bytes and stores the length
truncated to `uint`, `row->length = 9`; the walk of the decoder over the two
fields ends at offset `2^32 + 9`, beyond `row->length`. -/
theorem decode_inside_row_counterexample :
    [FieldVal.str bigString, FieldVal.null].length = 2 ∧
    record_place 2 [FieldVal.str bigString, FieldVal.null]
      = .ok ⟨5 :: 255 :: 255 :: 255 :: 255 :: 255 :: 255 :: 255 :: 1 :: (bigString ++ [0]), 9⟩ ∧
    width_walk (5 :: 255 :: 255 :: 255 :: 255 :: 255 :: 255 :: 255 :: 1 :: (bigString ++ [0]))
      2 0 = .ok 4294967305 ∧
    (9 : Nat) < 4294967305 :=
  ⟨rfl, (wrap_record bigString length_bigString).1,
    wrap_width_walk bigString length_bigString, by decide⟩

/-- C23 (amended): for every list of valid field values with as many values as the
table has columns and whose row needs fewer than `2^32` bytes, `record_place`
returns a row (no write outside the allocated buffer, the assertion of
`sample_field` holds), the buffer has exactly `row->length` bytes, `record_store`
decodes the `width` fields with every read inside the buffer, hence at an offset
below `row->length`, and the offset reached after the last field is at most
`row->length`. -/
theorem decode_inside_row (width : Nat) (fields : List FieldVal)
    (hw : fields.length = width) (hv : ∀ f ∈ fields, f.valid)
    (hlt : place_length fields < UINT_MOD) :
    ∃ row off, record_place width fields = .ok row ∧
      row.buffer.length = row.length ∧
      record_store width (some row) = .ok (0, fields.map some) ∧
      width_walk row.buffer width 0 = .ok off ∧ off ≤ row.length := by
  have hle := length_encRow_le fields hv
  refine ⟨_, (encRow fields).length, record_place_enc width fields (le_of_eq hw) hv hlt,
    ?_, ?_, ?_, hle⟩
  · simp only [List.length_append, List.length_replicate]
    omega
  · have h := store_loop_enc fields []
      (List.replicate (place_length fields - (encRow fields).length) 0) hv
    simp only [List.nil_append, List.length_nil, hw] at h
    simp only [record_store, h]
  · have h := width_walk_enc fields []
      (List.replicate (place_length fields - (encRow fields).length) 0) hv
    simp only [List.nil_append, List.length_nil, hw, Nat.zero_add] at h
    exact h

/-- Witness of C23: a row of three columns. -/
theorem decode_inside_row_witness :
    ∃ row off, record_place 3 [.int 1000, .str [97, 98], .null] = .ok row ∧
      row.buffer.length = row.length ∧
      record_store 3 (some row) = .ok (0, [FieldVal.int 1000, .str [97, 98], .null].map some) ∧
      width_walk row.buffer 3 0 = .ok off ∧ off ≤ row.length :=
  decode_inside_row 3 _ (by decide) (by decide) (by decide)

/-- C25: for every buffer and field start `p` with tag `t`, the payload starts
`1 + h` bytes after `p`, where the header `h` is 8 for a long string, 1 for a short
string and 0 otherwise; `sample_field_length` is 0 for null and for an unknown tag,
1, 4, 8 for the integer tags and the first stored length for strings; and
`sample_field_width(p) = (sample_field_buffer(p) - p) + sample_field_length(p)`
(the two fail together when the length bytes lie outside the buffer). -/
theorem field_accessors_consistent (b : List Nat) (p t : Nat) (ht : rd8 b p = .ok t) :
    sample_field_type b p = .ok t ∧
    sample_field_buffer b p
      = .ok (p + 1 + (if t = SAMPLE_STRING then 8 else if t = SAMPLE_TINYSTRING then 1 else 0)) ∧
    sample_field_length b p
      = (if t = SAMPLE_NULL then .ok 0
         else if t = SAMPLE_STRING then rdLE b (p + 1) 4
         else if t = SAMPLE_TINYSTRING then rd8 b (p + 1)
         else if t = SAMPLE_INT64 then .ok 8
         else if t = SAMPLE_INT32 then .ok 4
         else if t = SAMPLE_INT08 then .ok 1
         else .ok 0) ∧
    (∀ q l, sample_field_buffer b p = .ok q → sample_field_length b p = .ok l →
      sample_field_width b p = .ok ((q - p) + l)) ∧
    (∀ e, sample_field_length b p = .error e → sample_field_width b p = .error e) := by
  refine ⟨ht, ?_, ?_, ?_, ?_⟩
  · simp only [sample_field_buffer, ht]
    split_ifs <;> simp_all
  · simp only [sample_field_length, ht]
  · intro q l hq hl
    simp only [sample_field_buffer, sample_field_length, sample_field_width, ht] at hq hl ⊢
    split_ifs at hq hl ⊢ <;> simp_all <;> omega
  · intro e hl
    simp only [sample_field_length, sample_field_width, ht] at hl ⊢
    split_ifs at hl ⊢ <;> simp_all

/-- Witness of C25: a short string of one byte. -/
theorem field_accessors_consistent_witness :
    sample_field_buffer [SAMPLE_TINYSTRING, 1, 97] 0 = .ok 2 ∧
    sample_field_length [SAMPLE_TINYSTRING, 1, 97] 0 = .ok 1 ∧
    sample_field_width [SAMPLE_TINYSTRING, 1, 97] 0 = .ok 3 :=
  ⟨by decide, by decide,
    (field_accessors_consistent [SAMPLE_TINYSTRING, 1, 97] 0 SAMPLE_TINYSTRING
      (by decide)).2.2.2.1 2 1 (by decide) (by decide)⟩

/-! ## Lemmas on lists -/

theorem dec_mod (n : Nat) (h0 : 0 < n) (h : n < UINT64_MOD) :
    (n + (UINT64_MOD - 1)) % UINT64_MOD = n - 1 := by
  simp only [UINT64_MOD] at h ⊢
  omega

theorem list_remove_head_cons {α : Type} (x : α) (xs : List α) (n : Nat) :
    list_remove_head (⟨x :: xs, n⟩ : list_t α)
      = .ok (some x, ⟨xs, (n + (UINT64_MOD - 1)) % UINT64_MOD⟩) := by
  simp [list_remove_head, list_remove_node]

theorem list_remove_head_nil {α : Type} (n : Nat) :
    list_remove_head (⟨[], n⟩ : list_t α) = .ok (none, ⟨[], n⟩) := rfl

theorem list_remove_head_insert_head {α : Type} (l : list_t α) (x : α)
    (h : l.length < UINT64_MOD) :
    list_remove_head (list_insert_head l x) = .ok (some x, l) := by
  obtain ⟨xs, n⟩ := l
  simp only [list_insert_head, list_remove_head_cons]
  simp only [UINT64_MOD] at h ⊢
  have : (((n + 1) % 18446744073709551616 + (18446744073709551616 - 1))
      % 18446744073709551616) = n := by omega
  rw [this]

theorem list_delete_walk_none {α : Type} [DecidableEq α] (x : α) (l : List α) (h : x ∉ l) :
    list_delete_walk x l = none := by
  induction l with
  | nil => rfl
  | cons y ys ih =>
    have hy : y ≠ x := fun e => h (e ▸ List.mem_cons_self _ _)
    have hys : x ∉ ys := fun e => h (List.mem_cons_of_mem _ e)
    simp [list_delete_walk, hy, ih hys]

theorem list_delete_walk_some {α : Type} [DecidableEq α] (x : α) (l : List α) (h : x ∈ l) :
    ∃ pre post, l = pre ++ x :: post ∧ x ∉ pre ∧ list_delete_walk x l = some (pre ++ post) := by
  induction l with
  | nil => cases h
  | cons y ys ih =>
    by_cases hy : y = x
    · subst hy
      exact ⟨[], ys, rfl, List.not_mem_nil _, by simp [list_delete_walk]⟩
    · have hys : x ∈ ys := by
        rcases List.mem_cons.mp h with e | e
        · exact absurd e.symm hy
        · exact e
      obtain ⟨pre, post, h1, h2, h3⟩ := ih hys
      refine ⟨y :: pre, post, by simp [h1], ?_, by simp [list_delete_walk, hy, h3]⟩
      intro hm
      rcases List.mem_cons.mp hm with e | e
      · exact hy e.symm
      · exact h2 e

theorem list_delete_walk_length {α : Type} [DecidableEq α] (x : α) (l c : List α)
    (h : list_delete_walk x l = some c) : c.length + 1 = l.length := by
  by_cases hx : x ∈ l
  · obtain ⟨pre, post, h1, _, h3⟩ := list_delete_walk_some x l hx
    rw [h3] at h
    cases h
    rw [h1]
    simp only [List.length_append, List.length_cons]
    omega
  · rw [list_delete_walk_none x l hx] at h
    cases h

/-- One operation keeps `length` equal to the number of nodes, as long as the
count fits 64 bits. -/
theorem list_apply_inv {α : Type} [DecidableEq α] (l : list_t α) (op : ListOp α)
    (hinv : l.length = l.head.length) (hlt : l.head.length + 1 < UINT64_MOD) :
    ∃ l2, list_apply l op = .ok l2 ∧ l2.length = l2.head.length ∧
      l2.head.length ≤ l.head.length + 1 := by
  obtain ⟨xs, n⟩ := l
  simp only at hinv hlt
  subst hinv
  cases op with
  | insert_head item =>
    refine ⟨_, rfl, ?_, ?_⟩
    · simp only [list_insert_head, List.length_cons]
      exact Nat.mod_eq_of_lt hlt
    · simp [list_insert_head]
  | remove_head =>
    cases xs with
    | nil => exact ⟨_, rfl, rfl, by simp⟩
    | cons y ys =>
      refine ⟨⟨ys, ((y :: ys).length + (UINT64_MOD - 1)) % UINT64_MOD⟩, ?_, ?_, ?_⟩
      · simp only [list_apply, list_remove_head_cons]
      · simp only
        rw [dec_mod _ (by simp) (by simp only [List.length_cons] at hlt ⊢; omega)]
        simp
      · simp only [List.length_cons]
        omega
  | delete item =>
    simp only [list_apply, list_delete]
    cases hwalk : list_delete_walk item xs with
    | none => exact ⟨_, rfl, rfl, by simp⟩
    | some c =>
      have hc := list_delete_walk_length item xs c hwalk
      refine ⟨_, rfl, ?_, ?_⟩
      · simp only
        rw [dec_mod _ (by omega) (by omega)]
        omega
      · simp only
        omega

theorem list_run_inv {α : Type} [DecidableEq α] (ops : List (ListOp α)) (l : list_t α)
    (hinv : l.length = l.head.length) (hlt : l.head.length + ops.length < UINT64_MOD) :
    ∃ l2, list_run ops l = .ok l2 ∧ l2.length = l2.head.length ∧
      l2.head.length ≤ l.head.length + ops.length := by
  induction ops generalizing l with
  | nil => exact ⟨l, rfl, hinv, by simp⟩
  | cons op ops ih =>
    simp only [List.length_cons] at hlt
    obtain ⟨l1, h1, h2, h3⟩ := list_apply_inv l op hinv (by omega)
    obtain ⟨l2, h4, h5, h6⟩ := ih l1 h2 (by omega)
    refine ⟨l2, ?_, h5, ?_⟩
    · simp only [list_run, h1, h4]
    · simp only [List.length_cons]
      omega

/-! ## Lemmas on the heap of tables -/

theorem table_setTable_self (w : World) (p : Nat) (t0 t : SampleTable)
    (h : w.table p = .ok t0) : (w.setTable p t).table p = .ok t := by
  have hp : p < w.heap.length := by
    unfold World.table at h
    cases hget : w.heap[p]? with
    | none => rw [hget] at h; cases h
    | some y => exact (List.getElem?_eq_some_iff.mp hget).1
  simp [World.table, World.setTable, List.getElem?_set, hp]

theorem table_setTable_ne (w : World) (p q : Nat) (t : SampleTable) (h : q ≠ p) :
    (w.setTable p t).table q = w.table q := by
  simp [World.table, World.setTable, List.getElem?_set, Ne.symm h]

/-! ## Lemmas on `write_row` -/

theorem write_row_reject (h : ha_sample) (w : World) (p : Nat) (t : SampleTable)
    (buf : List FieldVal) (r : Nat) (trylock : Bool)
    (hp : h.sample_table = some p) (ht : w.table p = .ok t) (hrate : t.rate ≠ 0)
    (hr : r % t.rate ≠ 0) :
    h.write_row buf r trylock w = .ok (0, h, w) := by
  simp only [ha_sample.write_row, hp, ht, if_neg hrate, if_neg hr]

theorem write_row_accept (h : ha_sample) (w : World) (p : Nat) (t : SampleTable)
    (buf : List FieldVal) (r : Nat) (trylock : Bool) (row : SampleRow)
    (hp : h.sample_table = some p) (ht : w.table p = .ok t) (hrate : t.rate ≠ 0)
    (hr : r % t.rate = 0) (henc : record_place t.width buf = .ok row) :
    h.write_row buf r trylock w
      = .ok (0, { h with counter_rows_inserted := (h.counter_rows_inserted + 1) % UINT_MOD },
          if trylock = true ∧ t.limit > t.rows.length then
            w.setTable p { t with rows := list_insert_head t.rows row }
          else w) := by
  simp only [ha_sample.write_row, hp, ht, if_neg hrate, if_pos hr, henc]

/-- What a `write_row` call that returns has done. -/
theorem write_row_ok (h : ha_sample) (w : World) (p : Nat) (t : SampleTable)
    (buf : List FieldVal) (r : Nat) (trylock : Bool) (rc : Nat) (h2 : ha_sample) (w2 : World)
    (hp : h.sample_table = some p) (ht : w.table p = .ok t)
    (hrun : h.write_row buf r trylock w = .ok (rc, h2, w2)) :
    rc = 0 ∧ t.rate ≠ 0 ∧
    ((r % t.rate ≠ 0 ∧ h2 = h ∧ w2 = w) ∨
     (r % t.rate = 0 ∧ ∃ row, record_place t.width buf = .ok row ∧
        h2 = { h with counter_rows_inserted := (h.counter_rows_inserted + 1) % UINT_MOD } ∧
        ((trylock = true ∧ t.limit > t.rows.length ∧
            w2 = w.setTable p { t with rows := list_insert_head t.rows row }) ∨
         (¬ (trylock = true ∧ t.limit > t.rows.length) ∧ w2 = w)))) := by
  by_cases hrate : t.rate = 0
  · simp only [ha_sample.write_row, hp, ht, if_pos hrate] at hrun
    cases hrun
  · by_cases hr : r % t.rate = 0
    · cases henc : record_place t.width buf with
      | error e =>
        simp only [ha_sample.write_row, hp, ht, if_neg hrate, if_pos hr, henc] at hrun
        cases hrun
      | ok row =>
        rw [write_row_accept h w p t buf r trylock row hp ht hrate hr henc] at hrun
        injection hrun with hrun
        injection hrun with h1 hrun
        injection hrun with h3 h4
        refine ⟨h1.symm, hrate, Or.inr ⟨hr, row, rfl, h3.symm, ?_⟩⟩
        by_cases hc : trylock = true ∧ t.limit > t.rows.length
        · rw [if_pos hc] at h4
          exact Or.inl ⟨hc.1, hc.2, h4.symm⟩
        · rw [if_neg hc] at h4
          exact Or.inr ⟨hc, h4.symm⟩
    · rw [write_row_reject h w p t buf r trylock hp ht hrate hr] at hrun
      injection hrun with hrun
      injection hrun with h1 hrun
      injection hrun with h3 h4
      exact ⟨h1.symm, hrate, Or.inl ⟨hr, h3.symm, h4.symm⟩⟩

/-! ## Lemmas on `rnd_next` -/

theorem rnd_next_snapshot_cons (h : ha_sample) (w : World) (p : Nat) (t : SampleTable)
    (row : SampleRow) (S : List SampleRow) (n rc : Nat) (vs : List (Option FieldVal))
    (hs : h.sample_rows = some ⟨row :: S, n⟩) (hn : n ≠ 0)
    (hp : h.sample_table = some p) (ht : w.table p = .ok t)
    (hdec : record_store t.width (some row) = .ok (rc, vs)) :
    h.rnd_next w
      = .ok (rc, vs, { h with sample_rows := some ⟨S, (n + (UINT64_MOD - 1)) % UINT64_MOD⟩,
                              sample_row := some row }, w) := by
  simp only [ha_sample.rnd_next, hs, if_pos hn, list_remove_head_cons,
    ha_sample.record_store, hp, ht, hdec, ne_eq, not_false_eq_true]

theorem rnd_next_snapshot_nil (h : ha_sample) (w : World) (n : Nat)
    (hs : h.sample_rows = some ⟨[], n⟩) :
    h.rnd_next w
      = .ok (HA_ERR_END_OF_FILE, [], { h with sample_rows := some ⟨[], n⟩, sample_row := none },
          w) := by
  by_cases hn : n = 0
  · simp [ha_sample.rnd_next, hs, hn, ha_sample.record_store]
  · simp [ha_sample.rnd_next, hs, hn, list_remove_head_nil, ha_sample.record_store]

theorem rnd_next_fresh (h : ha_sample) (w : World) (p : Nat) (t : SampleTable)
    (hs : h.sample_rows = none) (hp : h.sample_table = some p) (ht : w.table p = .ok t) :
    h.rnd_next w
      = ({ h with sample_rows := some t.rows } : ha_sample).rnd_next
          (w.setTable p { t with rows := list_alloc }) := by
  simp only [ha_sample.rnd_next, hs, hp, ht]

theorem scan_fresh (h : ha_sample) (w : World) (p : Nat) (t : SampleTable) (n : Nat)
    (hs : h.sample_rows = none) (hp : h.sample_table = some p) (ht : w.table p = .ok t) :
    h.scan (n + 1) w
      = ({ h with sample_rows := some t.rows } : ha_sample).scan (n + 1)
          (w.setTable p { t with rows := list_alloc }) := by
  simp only [ha_sample.scan, rnd_next_fresh h w p t hs hp ht]

theorem scan_exhausted (k : Nat) (h : ha_sample) (w : World)
    (hs : h.sample_rows = some ⟨[], 0⟩) :
    ∃ r, h.scan k w
      = .ok (List.replicate k (HA_ERR_END_OF_FILE, []),
          { h with sample_rows := some ⟨[], 0⟩, sample_row := r }, w) := by
  induction k generalizing h with
  | zero =>
    refine ⟨h.sample_row, ?_⟩
    obtain ⟨a, b, c, d, e, f⟩ := h
    simp only at hs
    subst hs
    rfl
  | succ k ih =>
    obtain ⟨r, hr⟩ := ih { h with sample_rows := some ⟨[], 0⟩, sample_row := none } rfl
    refine ⟨r, ?_⟩
    simp only [ha_sample.scan, rnd_next_snapshot_nil h w 0 hs, hr, List.replicate_succ]

/-- A session that holds the snapshot `S` returns the rows of `S` from the head
on, then end-of-file, and leaves the state as it is. -/
theorem scan_snapshot (w : World) (p : Nat) (t : SampleTable) (ht : w.table p = .ok t)
    (S : List SampleRow) (vals : List (List (Option FieldVal)))
    (hdec : List.Forall₂ (fun row vs => record_store t.width (some row) = .ok (0, vs)) S vals)
    (k : Nat) (h : ha_sample) (hs : h.sample_rows = some ⟨S, S.length⟩)
    (hlen : S.length < UINT64_MOD) (hp : h.sample_table = some p) :
    ∃ r, h.scan (S.length + k) w
      = .ok (vals.map (fun vs => (0, vs)) ++ List.replicate k (HA_ERR_END_OF_FILE, []),
          { h with sample_rows := some ⟨[], 0⟩, sample_row := r }, w) := by
  induction hdec generalizing h with
  | nil =>
    obtain ⟨r, hr⟩ := scan_exhausted k h w hs
    exact ⟨r, by simpa using hr⟩
  | @cons row vs S vals hrow _ ih =>
    simp only [List.length_cons] at hs hlen
    have hstep := rnd_next_snapshot_cons h w p t row S (S.length + 1) 0 vs hs (by omega) hp ht hrow
    rw [dec_mod _ (by omega) hlen] at hstep
    simp only [Nat.add_sub_cancel] at hstep
    obtain ⟨r, hr⟩ := ih
      { h with sample_rows := some ⟨S, S.length⟩, sample_row := some row } rfl (by omega) hp
    refine ⟨r, ?_⟩
    have hshape : (row :: S).length + k = (S.length + k) + 1 := by
      simp only [List.length_cons]; omega
    rw [hshape]
    simp only [ha_sample.scan, hstep, hr, List.map_cons, List.cons_append]

/-! ## Lemmas on sequences of calls -/

/-- Rate 1 and a try-lock that always succeeds: the rows are inserted at the head
until the table is full. -/
theorem write_rows_fill (p width : Nat) (items : List (List FieldVal × Nat × Bool))
    (rows : List SampleRow)
    (henc : List.Forall₂
      (fun item row => record_place width item.1 = .ok row ∧ item.2.2 = true) items rows)
    (h : ha_sample) (w : World) (t : SampleTable)
    (hp : h.sample_table = some p) (ht : w.table p = .ok t) (hwidth : t.width = width)
    (hrate : t.rate = 1) (hinv : t.rows.length = t.rows.head.length)
    (hlim : t.limit < UINT64_MOD) :
    ∃ c w2, h.write_rows items w = .ok ({ h with counter_rows_inserted := c }, w2) ∧
      w2.table p = .ok { t with rows :=
        ⟨(rows.take (t.limit - t.rows.head.length)).reverse ++ t.rows.head,
          t.rows.head.length + min rows.length (t.limit - t.rows.head.length)⟩ } := by
  induction henc generalizing h w t with
  | nil =>
    refine ⟨h.counter_rows_inserted, w, rfl, ?_⟩
    rw [ht]
    obtain ⟨a, b, c, d, e, f, ⟨xs, n⟩⟩ := t
    simp only at hinv
    subst hinv
    simp
  | @cons item row items rows hitem _ ih =>
    obtain ⟨buf, r, trylock⟩ := item
    obtain ⟨hrow, hlock⟩ := hitem
    simp only at hrow hlock
    subst hlock
    have hr : r % t.rate = 0 := by rw [hrate]; exact Nat.mod_one r
    have hrate0 : t.rate ≠ 0 := by rw [hrate]; decide
    have hstep := write_row_accept h w p t buf r true row hp ht hrate0 hr (hwidth ▸ hrow)
    by_cases hcap : t.limit > t.rows.length
    · rw [if_pos ⟨rfl, hcap⟩] at hstep
      have ht2 := table_setTable_self w p t { t with rows := list_insert_head t.rows row } ht
      obtain ⟨c, w2, h1, h2⟩ := ih
        { h with counter_rows_inserted := (h.counter_rows_inserted + 1) % UINT_MOD }
        (w.setTable p { t with rows := list_insert_head t.rows row })
        { t with rows := list_insert_head t.rows row } hp ht2 hwidth hrate
        (by
          simp only [list_insert_head, List.length_cons]
          rw [hinv]
          exact Nat.mod_eq_of_lt (by omega))
        hlim
      refine ⟨c, w2, ?_, ?_⟩
      · simp only [ha_sample.write_rows, hstep, h1]
      · rw [h2]
        obtain ⟨a, b, c1, d, e, f, ⟨xs, n⟩⟩ := t
        simp only at hinv hcap
        subst hinv
        simp only [list_insert_head, List.length_cons]
        have hk : f - xs.length = (f - (xs.length + 1)) + 1 := by omega
        rw [hk, List.take_succ_cons, List.reverse_cons]
        have e1 : (List.take (f - (xs.length + 1)) rows).reverse ++ row :: xs
            = ((List.take (f - (xs.length + 1)) rows).reverse ++ [row]) ++ xs := by simp
        have e2 : xs.length + 1 + min rows.length (f - (xs.length + 1))
            = xs.length + min (row :: rows).length (f - (xs.length + 1) + 1) := by
          simp only [List.length_cons]
          omega
        rw [e1, e2]
        rfl
    · rw [if_neg (fun hc => hcap hc.2)] at hstep
      obtain ⟨c, w2, h1, h2⟩ := ih
        { h with counter_rows_inserted := (h.counter_rows_inserted + 1) % UINT_MOD }
        w t hp ht hwidth hrate hinv hlim
      refine ⟨c, w2, ?_, ?_⟩
      · simp only [ha_sample.write_rows, hstep, h1]
      · rw [h2]
        have hz : t.limit - t.rows.head.length = 0 := by omega
        rw [hz]
        simp

/-- The counter of the handle after a sequence of writes, and the growth of the
table. -/
theorem write_rows_counter (p : Nat) (items : List (List FieldVal × Nat × Bool))
    (h : ha_sample) (w : World) (t : SampleTable) (h2 : ha_sample) (w2 : World)
    (hp : h.sample_table = some p) (ht : w.table p = .ok t)
    (hc : h.counter_rows_inserted < UINT_MOD)
    (hrun : h.write_rows items w = .ok (h2, w2)) :
    ∃ t2, w2.table p = .ok t2 ∧ t2.rate = t.rate ∧ h2.sample_table = some p ∧
      h2.counter_rows_inserted
        = (h.counter_rows_inserted + admitted t.rate items) % UINT_MOD ∧
      t.rows.head.length ≤ t2.rows.head.length ∧
      t2.rows.head.length ≤ t.rows.head.length + admitted t.rate items := by
  induction items generalizing h w t with
  | nil =>
    simp only [ha_sample.write_rows] at hrun
    injection hrun with hrun
    injection hrun with h1 h3
    subst h1
    subst h3
    exact ⟨t, ht, rfl, hp, by simp [admitted, Nat.mod_eq_of_lt hc], Nat.le_refl _,
      by simp [admitted]⟩
  | cons item items ih =>
    obtain ⟨buf, r, trylock⟩ := item
    simp only [ha_sample.write_rows] at hrun
    cases hstep : h.write_row buf r trylock w with
    | error e => rw [hstep] at hrun; cases hrun
    | ok res =>
      obtain ⟨rc, h1, w1⟩ := res
      rw [hstep] at hrun
      simp only at hrun
      obtain ⟨_, hrate0, hcases⟩ := write_row_ok h w p t buf r trylock rc h1 w1 hp ht hstep
      rcases hcases with ⟨hr, e1, e2⟩ | ⟨hr, row, _, e1, hw⟩
      · subst e1
        subst e2
        obtain ⟨t2, a1, a2, a3, a4, a5, a6⟩ := ih h1 w1 t hp ht hc hrun
        refine ⟨t2, a1, a2, a3, ?_, a5, ?_⟩
        · rw [a4]
          simp [admitted, hr]
        · simp only [admitted, if_neg hr]
          omega
      · rcases hw with ⟨_, _, e2⟩ | ⟨_, e2⟩
        · have ht1 : w1.table p = .ok { t with rows := list_insert_head t.rows row } := by
            rw [e2]
            exact table_setTable_self w p t _ ht
          have hp1 : h1.sample_table = some p := by rw [e1]; exact hp
          have hc1 : h1.counter_rows_inserted < UINT_MOD := by
            rw [e1]
            exact Nat.mod_lt _ (by decide)
          obtain ⟨t2, a1, a2, a3, a4, a5, a6⟩ := ih h1 w1 _ hp1 ht1 hc1 hrun
          refine ⟨t2, a1, a2, a3, ?_, ?_, ?_⟩
          · rw [a4, e1]
            simp only [admitted, if_pos hr, UINT_MOD]
            omega
          · simp only [list_insert_head, List.length_cons] at a5
            omega
          · simp only [list_insert_head, List.length_cons] at a6
            simp only [admitted, if_pos hr]
            omega
        · have hp1 : h1.sample_table = some p := by rw [e1]; exact hp
          have ht1 : w1.table p = .ok t := by rw [e2]; exact ht
          have hc1 : h1.counter_rows_inserted < UINT_MOD := by
            rw [e1]
            exact Nat.mod_lt _ (by decide)
          obtain ⟨t2, a1, a2, a3, a4, a5, a6⟩ := ih h1 w1 t hp1 ht1 hc1 hrun
          refine ⟨t2, a1, a2, a3, ?_, a5, ?_⟩
          · rw [a4, e1]
            simp only [admitted, if_pos hr, UINT_MOD]
            omega
          · simp only [admitted, if_pos hr]
            omega

/-! ## Counting admitted draws -/

theorem admitted_append (rate : Nat) (a b : List (List FieldVal × Nat × Bool)) :
    admitted rate (a ++ b) = admitted rate a + admitted rate b := by
  induction a with
  | nil => simp [admitted]
  | cons x xs ih =>
    obtain ⟨buf, r, lock⟩ := x
    show (if r % rate = 0 then 1 else 0) + admitted rate (xs ++ b)
      = (if r % rate = 0 then 1 else 0) + admitted rate xs + admitted rate b
    rw [ih]
    omega

theorem ceil_div_succ (N rate : Nat) (hrate : 1 ≤ rate) :
    (N + 1 + rate - 1) / rate = (N + rate - 1) / rate + (if N % rate = 0 then 1 else 0) := by
  have hdm := Nat.div_add_mod N rate
  have hm := Nat.mod_lt N (show 0 < rate by omega)
  generalize hq : N / rate = q at hdm
  generalize hk : rate * q = k at hdm
  have hk2 : q * rate = k := by rw [Nat.mul_comm]; exact hk
  have hk3 : (q + 1) * rate = k + rate := by rw [Nat.add_mul, hk2]; omega
  have hk4 : (q + 1 + 1) * rate = k + rate + rate := by rw [Nat.add_mul, hk3]; omega
  by_cases h0 : N % rate = 0
  · rw [if_pos h0]
    have e1 : (N + rate - 1) / rate = q :=
      Nat.div_eq_of_lt_le (by rw [hk2]; omega) (by rw [hk3]; omega)
    have e2 : (N + 1 + rate - 1) / rate = q + 1 :=
      Nat.div_eq_of_lt_le (by rw [hk3]; omega) (by rw [hk4]; omega)
    rw [e1, e2]
  · rw [if_neg h0]
    have e1 : (N + rate - 1) / rate = q + 1 :=
      Nat.div_eq_of_lt_le (by rw [hk3]; omega) (by rw [hk4]; omega)
    have e2 : (N + 1 + rate - 1) / rate = q + 1 :=
      Nat.div_eq_of_lt_le (by rw [hk3]; omega) (by rw [hk4]; omega)
    rw [e1, e2]

theorem rnd_next_ok_snapshot (h : ha_sample) (w : World) (rows0 : list_t SampleRow)
    (rc : Nat) (vs : List (Option FieldVal)) (h2 : ha_sample) (w2 : World)
    (hs : h.sample_rows = some rows0)
    (hrun : h.rnd_next w = .ok (rc, vs, h2, w2)) :
    h2.sample_table = h.sample_table ∧ w2 = w := by
  simp only [ha_sample.rnd_next, hs] at hrun
  split at hrun
  · cases hrun
  · split at hrun
    · cases hrun
    · injection hrun with hrun
      injection hrun with _ hrun
      injection hrun with _ hrun
      injection hrun with e1 e2
      exact ⟨by rw [← e1], e2.symm⟩

/-- What an `rnd_next` call that returns has done to the handle's table pointer
and to the state: nothing, or the swap. -/
theorem rnd_next_ok (h : ha_sample) (w : World) (p : Nat) (t : SampleTable)
    (rc : Nat) (vs : List (Option FieldVal)) (h2 : ha_sample) (w2 : World)
    (hp : h.sample_table = some p) (ht : w.table p = .ok t)
    (hrun : h.rnd_next w = .ok (rc, vs, h2, w2)) :
    h2.sample_table = some p ∧
    ((h.sample_rows ≠ none ∧ w2 = w) ∨
     (h.sample_rows = none ∧ w2 = w.setTable p { t with rows := list_alloc })) := by
  cases hs : h.sample_rows with
  | none =>
    rw [rnd_next_fresh h w p t hs hp ht] at hrun
    obtain ⟨e1, e2⟩ := rnd_next_ok_snapshot _ _ t.rows rc vs h2 w2 rfl hrun
    exact ⟨by rw [e1]; exact hp, Or.inr ⟨rfl, e2⟩⟩
  | some rows0 =>
    obtain ⟨e1, e2⟩ := rnd_next_ok_snapshot h w rows0 rc vs h2 w2 hs hrun
    exact ⟨by rw [e1]; exact hp, Or.inl ⟨by simp, e2⟩⟩

theorem call_bounded (h : ha_sample) (w : World) (p limit : Nat) (c : Call)
    (h2 : ha_sample) (w2 : World) (hlim : limit < UINT64_MOD)
    (hp : h.sample_table = some p) (hb : table_bounded w p limit)
    (hrun : h.call w c = .ok (h2, w2)) :
    h2.sample_table = some p ∧ table_bounded w2 p limit := by
  obtain ⟨t, ht, hl, hinv, hle⟩ := hb
  cases c with
  | write_row buf r trylock =>
    simp only [ha_sample.call] at hrun
    cases hstep : h.write_row buf r trylock w with
    | error e => rw [hstep] at hrun; cases hrun
    | ok res =>
      obtain ⟨rc, h1, w1⟩ := res
      rw [hstep] at hrun
      injection hrun with hrun
      injection hrun with e1 e2
      subst e1
      subst e2
      obtain ⟨_, _, hcases⟩ := write_row_ok h w p t buf r trylock rc h1 w1 hp ht hstep
      rcases hcases with ⟨_, e1, e2⟩ | ⟨_, row, _, e1, hw⟩
      · subst e1
        subst e2
        exact ⟨hp, t, ht, hl, hinv, hle⟩
      · have hp1 : h1.sample_table = some p := by rw [e1]; exact hp
        rcases hw with ⟨_, hcap, e2⟩ | ⟨_, e2⟩
        · refine ⟨hp1, { t with rows := list_insert_head t.rows row }, ?_, hl, ?_, ?_⟩
          · rw [e2]
            exact table_setTable_self w p t _ ht
          · simp only [list_insert_head, List.length_cons]
            rw [hinv]
            exact Nat.mod_eq_of_lt (by omega)
          · simp only [list_insert_head, List.length_cons]
            omega
        · subst e2
          exact ⟨hp1, t, ht, hl, hinv, hle⟩
  | rnd_next =>
    simp only [ha_sample.call] at hrun
    cases hstep : h.rnd_next w with
    | error e => rw [hstep] at hrun; cases hrun
    | ok res =>
      obtain ⟨rc, vs, h1, w1⟩ := res
      rw [hstep] at hrun
      injection hrun with hrun
      injection hrun with e1 e2
      subst e1
      subst e2
      obtain ⟨hp1, hw⟩ := rnd_next_ok h w p t rc vs h1 w1 hp ht hstep
      rcases hw with ⟨_, e2⟩ | ⟨_, e2⟩
      · subst e2
        exact ⟨hp1, t, ht, hl, hinv, hle⟩
      · refine ⟨hp1, { t with rows := list_alloc }, ?_, hl, rfl, Nat.zero_le _⟩
        rw [e2]
        exact table_setTable_self w p t _ ht
  | rnd_init scan =>
    simp only [ha_sample.call, ha_sample.rnd_init, ha_sample.rnd_end] at hrun
    injection hrun with hrun
    injection hrun with e1 e2
    subst e1
    subst e2
    exact ⟨hp, t, ht, hl, hinv, hle⟩
  | rnd_end =>
    simp only [ha_sample.call, ha_sample.rnd_end] at hrun
    injection hrun with hrun
    injection hrun with e1 e2
    subst e1
    subst e2
    exact ⟨hp, t, ht, hl, hinv, hle⟩

theorem calls_bounded (cs : List Call) (h : ha_sample) (w : World) (p limit : Nat)
    (h2 : ha_sample) (w2 : World) (hlim : limit < UINT64_MOD)
    (hp : h.sample_table = some p) (hb : table_bounded w p limit)
    (hrun : ha_sample.calls cs h w = .ok (h2, w2)) :
    h2.sample_table = some p ∧ table_bounded w2 p limit := by
  induction cs generalizing h w with
  | nil =>
    simp only [ha_sample.calls] at hrun
    injection hrun with hrun
    injection hrun with e1 e2
    subst e1
    subst e2
    exact ⟨hp, hb⟩
  | cons c cs ih =>
    simp only [ha_sample.calls] at hrun
    cases hstep : h.call w c with
    | error e => rw [hstep] at hrun; cases hrun
    | ok res =>
      obtain ⟨h1, w1⟩ := res
      rw [hstep] at hrun
      obtain ⟨hp1, hb1⟩ := call_bounded h w p limit c h1 w1 hlim hp hb hstep
      exact ih h1 w1 hp1 hb1 hrun

/-! ## Lemmas on the registry -/

/-- The lookup loop over a chain of valid table pointers: the first table of that
name, or none. -/
theorem find_table_spec (w : World) (name : List Nat) (l : List Nat)
    (hvalid : ∀ q ∈ l, ∃ u, w.table q = .ok u) :
    ∃ r, find_table w name l = .ok r ∧
      (∀ p, r = some p → p ∈ l ∧ ∃ t, w.table p = .ok t ∧ t.name = name) ∧
      (r = none → ∀ q ∈ l, ∀ u, w.table q = .ok u → u.name ≠ name) := by
  induction l with
  | nil =>
    refine ⟨none, rfl, ?_, ?_⟩
    · intro p hp; cases hp
    · intro _ q hq; cases hq
  | cons x xs ih =>
    obtain ⟨u, hu⟩ := hvalid x (List.mem_cons_self _ _)
    by_cases hn : u.name = name
    · refine ⟨some x, by simp only [find_table, hu, if_pos hn], ?_, ?_⟩
      · intro p hp
        injection hp with hp
        subst hp
        exact ⟨List.mem_cons_self _ _, u, hu, hn⟩
      · intro hc; cases hc
    · obtain ⟨r, h1, h2, h3⟩ := ih (fun q hq => hvalid q (List.mem_cons_of_mem _ hq))
      refine ⟨r, by simp only [find_table, hu, if_neg hn, h1], ?_, ?_⟩
      · intro p hp
        obtain ⟨a, b⟩ := h2 p hp
        exact ⟨List.mem_cons_of_mem _ a, b⟩
      · intro hr q hq v hv
        rcases List.mem_cons.mp hq with e | e
        · subst e
          rw [hu] at hv
          injection hv with hv
          subst hv
          exact hn
        · exact h3 hr q e v hv

/-- A probe (`width = 0` or `rate = 0`) is the lookup and nothing else. -/
theorem sample_table_open_probe (name : List Nat) (width rate limit : Nat) (w : World)
    (r : Option Nat) (hz : width = 0 ∨ rate = 0)
    (hfind : find_table w name w.sample_tables.head = .ok r) :
    sample_table_open name width rate limit w = .ok (r, w) := by
  have hno : ¬ (width ≠ 0 ∧ rate ≠ 0) := by
    intro hc
    rcases hz with h0 | h0
    · exact hc.1 h0
    · exact hc.2 h0
  cases r with
  | none => simp only [sample_table_open, hfind, if_neg hno]
  | some p => simp only [sample_table_open, hfind]

/-- With an empty registry `open` creates a table at the next free address. -/
theorem open_empty_registry (h : ha_sample) (name : List Nat) (w : World)
    (hreg : w.sample_tables.head = []) (hf : h.fields ≠ 0) (hr : w.sample_rate ≠ 0) :
    ∃ w2, h.open name w
        = .ok (0, { h with sample_table := some w.heap.length, sample_rand := w.sample_seed,
                           counter_rows_inserted := 0 }, w2) ∧
      w2.sample_seed = (w.sample_seed + 1) % UINT64_MOD ∧
      w2.sample_tables = w.sample_tables ∧ w2.sample_rate = w.sample_rate ∧
      w2.sample_limit = w.sample_limit ∧
      w2.heap = w.heap ++ [some ⟨name, 1 % UINT_MOD, h.fields, w.sample_rate, false,
        w.sample_limit, list_alloc⟩] := by
  have hfind : find_table w name w.sample_tables.head = .ok none := by rw [hreg]; rfl
  have hopen : sample_table_open name h.fields w.sample_rate w.sample_limit w
      = .ok (some w.heap.length,
          { w with heap := w.heap ++ [some ⟨name, 0, h.fields, w.sample_rate, false,
              w.sample_limit, list_alloc⟩] }) := by
    simp only [sample_table_open, hfind, if_pos (And.intro hf hr)]
  refine ⟨{ w with
      heap := w.heap ++ [some ⟨name, 1 % UINT_MOD, h.fields, w.sample_rate, false,
        w.sample_limit, list_alloc⟩]
      sample_seed := (w.sample_seed + 1) % UINT64_MOD }, ?_, rfl, rfl, rfl, rfl, rfl⟩
  simp [ha_sample.open, hopen, World.table, World.setTable]

theorem open_all_fresh (reqs : List (Nat × List Nat)) (w : World)
    (hreg : w.sample_tables.head = []) (hr : w.sample_rate ≠ 0)
    (hf : ∀ q ∈ reqs, q.1 ≠ 0) (hlt : w.sample_seed + reqs.length < UINT64_MOD) :
    ∃ hs w2, open_all reqs w = .ok (hs, w2) ∧
      hs.map (fun h => h.sample_rand) = List.range' w.sample_seed reqs.length ∧
      w2.sample_seed = w.sample_seed + reqs.length := by
  induction reqs generalizing w with
  | nil => exact ⟨[], w, rfl, rfl, rfl⟩
  | cons q reqs ih =>
    obtain ⟨fields, name⟩ := q
    simp only [List.length_cons] at hlt
    have hf0 : (ha_sample.create fields).fields ≠ 0 := hf (fields, name) (List.mem_cons_self _ _)
    obtain ⟨w1, h1, h2, h3, h4, _, _⟩ :=
      open_empty_registry (ha_sample.create fields) name w hreg hf0 hr
    have hseed : w1.sample_seed = w.sample_seed + 1 := by
      rw [h2]
      exact Nat.mod_eq_of_lt (by omega)
    obtain ⟨hs, w2, a1, a2, a3⟩ := ih w1 (by rw [h3]; exact hreg) (by rw [h4]; exact hr)
      (fun q hq => hf q (List.mem_cons_of_mem _ hq)) (by rw [hseed]; omega)
    refine ⟨{ ha_sample.create fields with
        sample_table := some w.heap.length, sample_rand := w.sample_seed,
        counter_rows_inserted := 0 } :: hs, w2, by simp only [open_all, h1, a1], ?_, ?_⟩
    · simp only [List.map_cons, a2, hseed, List.length_cons, List.range'_succ]
    · rw [a3, hseed, List.length_cons]
      omega

theorem table_heap_set_ne (w : World) (heap : List (Option SampleTable)) (p q : Nat)
    (x : Option SampleTable) (tables : list_t Nat) (removed : List (List Nat))
    (hheap : heap = w.heap.set p x) (h : q ≠ p) :
    World.table { w with heap := heap, sample_tables := tables, removed := removed } q
      = w.table q := by
  subst hheap
  simp [World.table, List.getElem?_set, Ne.symm h]

theorem table_lt (w : World) (p : Nat) (t : SampleTable) (h : w.table p = .ok t) :
    p < w.heap.length := by
  unfold World.table at h
  cases hget : w.heap[p]? with
  | none => rw [hget] at h; cases h
  | some y => exact (List.getElem?_eq_some_iff.mp hget).1

/-! ## The engine: claims -/

/-- C2: starting from a table whose row collection is empty, after any sequence of
`write_row`, `rnd_next`, `rnd_init` and `rnd_end` calls on a handle of that table
(any rows, any draws, any try-lock outcomes) that has run to its end, the table
still has its capacity `limit`, holds at most `limit` rows, and its `length` field
is the number of its rows. -/
theorem capacity_invariant (h : ha_sample) (w : World) (p : Nat) (t : SampleTable)
    (cs : List Call) (h2 : ha_sample) (w2 : World)
    (hp : h.sample_table = some p) (ht : w.table p = .ok t) (hfresh : t.rows = list_alloc)
    (hlim : t.limit < UINT_MOD) (hrun : ha_sample.calls cs h w = .ok (h2, w2)) :
    ∃ t2, w2.table p = .ok t2 ∧ t2.limit = t.limit ∧ t2.rows.head.length ≤ t.limit ∧
      t2.rows.length = t2.rows.head.length := by
  have hb : table_bounded w p t.limit :=
    ⟨t, ht, rfl, by rw [hfresh]; rfl, by rw [hfresh]; exact Nat.zero_le _⟩
  have hlim2 : t.limit < UINT64_MOD := by
    simp only [UINT_MOD] at hlim
    simp only [UINT64_MOD]
    omega
  obtain ⟨_, t2, a1, a2, a3, a4⟩ := calls_bounded cs h w p t.limit h2 w2 hlim2 hp hb hrun
  exact ⟨t2, a1, a2, a4, a3⟩

/-- Witness of C2: twelve calls on a table of capacity 3. -/
theorem capacity_invariant_witness :
    ∃ h2 w2, ha_sample.calls some_calls handle_open world_open = .ok (h2, w2) ∧
      ∃ t2, w2.table 0 = .ok t2 ∧ t2.limit = 3 ∧ t2.rows.head.length ≤ 3 ∧
        t2.rows.length = t2.rows.head.length :=
  ⟨_, _, rfl,
    capacity_invariant handle_open world_open 0 ⟨[116], 1, 2, 1, false, 3, ⟨[], 0⟩⟩ some_calls
      _ _ rfl rfl rfl (by decide) rfl⟩

/-- C3: let the table of a handle hold the rows `R` (its `length` field counts
them, every row decodes) and let the handle start a scan session
(`sample_rows = NULL`). Then the first `rnd_next` call returns a result and leaves
the row collection of the table empty; `|R| + 1` successive `rnd_next` calls return
code 0 with the decoded values of each row of `R` once, from the head on, and then
`HA_ERR_END_OF_FILE`, the state staying as the first call left it; for `R` empty
the first call returns `HA_ERR_END_OF_FILE`; and the first `rnd_next` of a session
started afterwards with `rnd_init` returns `HA_ERR_END_OF_FILE`. -/
theorem exactly_once_drain (h : ha_sample) (w : World) (p : Nat) (t : SampleTable)
    (R : List SampleRow) (vals : List (List (Option FieldVal)))
    (hs : h.sample_rows = none) (hp : h.sample_table = some p) (ht : w.table p = .ok t)
    (hrows : t.rows = ⟨R, R.length⟩) (hlen : R.length < UINT64_MOD)
    (hdec : List.Forall₂ (fun row vs => record_store t.width (some row) = .ok (0, vs)) R vals) :
    ∃ h2,
      h.scan (R.length + 1) w
        = .ok (vals.map (fun vs => (0, vs)) ++ [(HA_ERR_END_OF_FILE, [])], h2,
            w.setTable p { t with rows := list_alloc }) ∧
      (∃ rc vs h1, h.rnd_next w = .ok (rc, vs, h1, w.setTable p { t with rows := list_alloc })) ∧
      (w.setTable p { t with rows := list_alloc }).table p = .ok { t with rows := list_alloc } ∧
      (R = [] → ∃ h1 w1, h.rnd_next w = .ok (HA_ERR_END_OF_FILE, [], h1, w1)) ∧
      (∃ h3 w3,
        (h2.rnd_init true (w.setTable p { t with rows := list_alloc })).2.1.rnd_next
            (h2.rnd_init true (w.setTable p { t with rows := list_alloc })).2.2
          = .ok (HA_ERR_END_OF_FILE, [], h3, w3)) := by
  have ht1 := table_setTable_self w p t { t with rows := list_alloc } ht
  have hfresh := scan_fresh h w p t R.length hs hp ht
  obtain ⟨r, hscan⟩ := scan_snapshot (w.setTable p { t with rows := list_alloc }) p
    { t with rows := list_alloc } ht1 R vals hdec 1
    ({ h with sample_rows := some t.rows } : ha_sample) (by rw [hrows]) hlen hp
  rw [← hfresh] at hscan
  refine ⟨_, hscan, ?_, ht1, ?_, ?_⟩
  · simp only [ha_sample.scan] at hscan
    cases hstep : h.rnd_next w with
    | error e => rw [hstep] at hscan; cases hscan
    | ok res =>
      obtain ⟨rc, vs, h1, w1⟩ := res
      obtain ⟨_, hw⟩ := rnd_next_ok h w p t rc vs h1 w1 hp ht hstep
      rcases hw with ⟨hne, _⟩ | ⟨_, e⟩
      · exact absurd hs hne
      · exact ⟨rc, vs, h1, by rw [e]⟩
  · intro hR
    subst hR
    rw [rnd_next_fresh h w p t hs hp ht]
    exact ⟨_, _, rnd_next_snapshot_nil _ _ 0 (by rw [hrows]; rfl)⟩
  · have hnext : ∀ hh : ha_sample, hh.sample_table = some p →
        ∃ h3 w3,
          (hh.rnd_init true (w.setTable p { t with rows := list_alloc })).2.1.rnd_next
              (hh.rnd_init true (w.setTable p { t with rows := list_alloc })).2.2
            = .ok (HA_ERR_END_OF_FILE, [], h3, w3) := by
      intro hh hhp
      have e := rnd_next_fresh
        (hh.rnd_init true (w.setTable p { t with rows := list_alloc })).2.1
        (w.setTable p { t with rows := list_alloc }) p { t with rows := list_alloc } rfl hhp ht1
      exact ⟨_, _, e.trans (rnd_next_snapshot_nil _ _ 0 rfl)⟩
    exact hnext _ hp

/-- Witness of C3: a table of one column holding two rows. -/
theorem exactly_once_drain_witness :
    ∃ h2,
      (⟨1, some 0, none, none, 0, 1⟩ : ha_sample).scan 3
          ⟨[some ⟨[116], 1, 1, 1, false, 3, ⟨[⟨[2, 7], 2⟩, ⟨[1], 1⟩], 2⟩⟩], ⟨[], 0⟩, 2, 1, 3, 0, []⟩
        = .ok ([(0, [some (.int 7)]), (0, [some .null]), (HA_ERR_END_OF_FILE, [])], h2,
            ⟨[some ⟨[116], 1, 1, 1, false, 3, ⟨[], 0⟩⟩], ⟨[], 0⟩, 2, 1, 3, 0, []⟩) :=
  let ⟨h2, a, _⟩ := exactly_once_drain ⟨1, some 0, none, none, 0, 1⟩
    ⟨[some ⟨[116], 1, 1, 1, false, 3, ⟨[⟨[2, 7], 2⟩, ⟨[1], 1⟩], 2⟩⟩], ⟨[], 0⟩, 2, 1, 3, 0, []⟩
    0 ⟨[116], 1, 1, 1, false, 3, ⟨[⟨[2, 7], 2⟩, ⟨[1], 1⟩], 2⟩⟩
    [⟨[2, 7], 2⟩, ⟨[1], 1⟩] [[some (.int 7)], [some .null]] rfl rfl rfl rfl (by decide)
    (List.Forall₂.cons (by decide) (List.Forall₂.cons (by decide) List.Forall₂.nil))
  ⟨h2, a⟩

/-- C4: for a table with an empty row collection, rate 1 and capacity `L`, after
`n` successive `write_row` calls whose try-lock succeeds and whose rows encode, the
table holds exactly `min n L` rows, the encodings of the first `min n L` rows
written (the most recent at the head); the later rows are discarded. -/
theorem first_rows_retained (h : ha_sample) (w : World) (p : Nat) (t : SampleTable)
    (items : List (List FieldVal × Nat × Bool)) (rows : List SampleRow)
    (hp : h.sample_table = some p) (ht : w.table p = .ok t) (hfresh : t.rows = list_alloc)
    (hrate : t.rate = 1) (hlim : t.limit < UINT_MOD)
    (henc : List.Forall₂
      (fun item row => record_place t.width item.1 = .ok row ∧ item.2.2 = true) items rows) :
    ∃ h2 w2 t2, h.write_rows items w = .ok (h2, w2) ∧ w2.table p = .ok t2 ∧
      t2.rows.length = min items.length t.limit ∧
      t2.rows.head.length = min items.length t.limit ∧
      t2.rows.head = (rows.take (min items.length t.limit)).reverse := by
  have hlim2 : t.limit < UINT64_MOD := by
    simp only [UINT_MOD] at hlim
    simp only [UINT64_MOD]
    omega
  obtain ⟨c, w2, h1, h2⟩ := write_rows_fill p t.width items rows henc h w t hp ht rfl hrate
    (by rw [hfresh]; rfl) hlim2
  have hl := henc.length_eq
  have htake : rows.take (min items.length t.limit) = rows.take t.limit := by
    rcases Nat.le_total items.length t.limit with hle | hle
    · rw [Nat.min_eq_left hle, List.take_of_length_le (by omega),
        List.take_of_length_le (by omega)]
    · rw [Nat.min_eq_right hle]
  refine ⟨_, w2, _, h1, h2, ?_, ?_, ?_⟩
  · simp only [hfresh, list_alloc, List.length_nil, Nat.zero_add, Nat.sub_zero, hl]
  · simp only [hfresh, list_alloc, List.length_nil, Nat.sub_zero, List.append_nil,
      List.length_reverse, List.length_take, hl]
    exact Nat.min_comm _ _
  · simp only [hfresh, list_alloc, List.length_nil, Nat.sub_zero, List.append_nil, htake]

/-- Witness of C4: capacity 3 and the rows `(1, "a")`, `(2, "b")`, `(3, "c")`,
`(4, "d")`: the first three are kept, the fourth is discarded. -/
theorem first_rows_retained_witness :
    ∃ h2 w2 t2, handle_open.write_rows four_rows world_open = .ok (h2, w2) ∧
      w2.table 0 = .ok t2 ∧ t2.rows.length = 3 ∧ t2.rows.head.length = 3 ∧
      t2.rows.head = [⟨[2, 3, 6, 1, 99], 5⟩, ⟨[2, 2, 6, 1, 98], 5⟩, ⟨[2, 1, 6, 1, 97], 5⟩] :=
  first_rows_retained handle_open world_open 0 ⟨[116], 1, 2, 1, false, 3, ⟨[], 0⟩⟩ four_rows
    [⟨[2, 1, 6, 1, 97], 5⟩, ⟨[2, 2, 6, 1, 98], 5⟩, ⟨[2, 3, 6, 1, 99], 5⟩, ⟨[2, 4, 6, 1, 100], 5⟩]
    rfl rfl rfl rfl (by decide)
    (List.Forall₂.cons (by decide) (List.Forall₂.cons (by decide)
      (List.Forall₂.cons (by decide) (List.Forall₂.cons (by decide) List.Forall₂.nil))))

/-- C9 (divergence of the code): `sample_table_open` never inserts the table it
creates into `sample_tables`, so a second `open` of the same name finds no table
and creates another one. After two handles have opened the name `t`, the first
holds the table at address 0 and the second the table at address 1, each table has
a user count of 1, and the registry is empty. -/
theorem reopen_creates_second_table :
    (ha_sample.create 2).open [116] world_init = .ok (0, handle_open, world_open) ∧
    (ha_sample.create 2).open [116] world_open
      = .ok (0, ⟨2, some 1, none, none, 0, 2⟩,
          ⟨[some ⟨[116], 1, 2, 1, false, 3, ⟨[], 0⟩⟩, some ⟨[116], 1, 2, 1, false, 3, ⟨[], 0⟩⟩],
            ⟨[], 0⟩, 3, 1, 3, 0, []⟩) ∧
    handle_open.sample_table ≠ (⟨2, some 1, none, none, 0, 2⟩ : ha_sample).sample_table := by
  decide

/-- C10: in every state whose registry holds valid table pointers, for every name,
`sample_table_open(name, width, rate, limit)` with `width = 0` or `rate = 0`
returns a registered table of that name when there is one and null when there is
none, and leaves the state, the registry included, as it is. -/
theorem probe_never_creates (name : List Nat) (width rate limit : Nat) (w : World)
    (hz : width = 0 ∨ rate = 0)
    (hvalid : ∀ q ∈ w.sample_tables.head, ∃ u, w.table q = .ok u) :
    ∃ r, sample_table_open name width rate limit w = .ok (r, w) ∧
      (∀ p, r = some p → p ∈ w.sample_tables.head ∧ ∃ t, w.table p = .ok t ∧ t.name = name) ∧
      (r = none → ∀ q ∈ w.sample_tables.head, ∀ u, w.table q = .ok u → u.name ≠ name) := by
  obtain ⟨r, hfind, hsome, hnone⟩ := find_table_spec w name w.sample_tables.head hvalid
  exact ⟨r, sample_table_open_probe name width rate limit w r hz hfind, hsome, hnone⟩

/-- Witness of C10: in a registry that lists the tables `a` and `b`, the probes
for `a` and for `c`. -/
theorem probe_never_creates_witness :
    (∃ r, sample_table_open [97] 0 5 7 world_two = .ok (r, world_two) ∧
      (∀ p, r = some p →
        p ∈ world_two.sample_tables.head ∧ ∃ t, world_two.table p = .ok t ∧ t.name = [97]) ∧
      (r = none →
        ∀ q ∈ world_two.sample_tables.head, ∀ u, world_two.table q = .ok u → u.name ≠ [97])) ∧
    sample_table_open [97] 0 5 7 world_two = .ok (some 0, world_two) ∧
    sample_table_open [99] 2 0 7 world_two = .ok (none, world_two) :=
  ⟨probe_never_creates [97] 0 5 7 world_two (Or.inl rfl)
      (by
        intro q hq
        have hq2 : q = 1 ∨ q = 0 := by simpa [world_two] using hq
        rcases hq2 with e | e <;> subst e <;> exact ⟨_, rfl⟩),
    by decide, by decide⟩

/-- C11 (divergence of the code): the table that `open` creates is never put into
the registry, so `delete_table` does not find it. After a handle has opened and
closed the name `a`, `delete_table("a")` returns with the state unchanged: the
table is still allocated, with its name and rows, and no file has been removed. -/
theorem drop_leaves_table :
    (ha_sample.create 2).open [97] world_init
      = .ok (0, ⟨2, some 0, none, none, 0, 1⟩,
          ⟨[some ⟨[97], 1, 2, 1, false, 3, ⟨[], 0⟩⟩], ⟨[], 0⟩, 2, 1, 3, 0, []⟩) ∧
    (⟨2, some 0, none, none, 0, 1⟩ : ha_sample).close
        ⟨[some ⟨[97], 1, 2, 1, false, 3, ⟨[], 0⟩⟩], ⟨[], 0⟩, 2, 1, 3, 0, []⟩
      = .ok (0, ⟨2, none, none, none, 0, 1⟩,
          ⟨[some ⟨[97], 0, 2, 1, false, 3, ⟨[], 0⟩⟩], ⟨[], 0⟩, 2, 1, 3, 0, []⟩) ∧
    ha_sample.delete_table [97]
        ⟨[some ⟨[97], 0, 2, 1, false, 3, ⟨[], 0⟩⟩], ⟨[], 0⟩, 2, 1, 3, 0, []⟩
      = .ok (true, ⟨[some ⟨[97], 0, 2, 1, false, 3, ⟨[], 0⟩⟩], ⟨[], 0⟩, 2, 1, 3, 0, []⟩) ∧
    World.table ⟨[some ⟨[97], 0, 2, 1, false, 3, ⟨[], 0⟩⟩], ⟨[], 0⟩, 2, 1, 3, 0, []⟩ 0
      = .ok ⟨[97], 0, 2, 1, false, 3, ⟨[], 0⟩⟩ := by
  decide

/-- X2: in every state whose registry is well formed (its pointers are valid and
distinct, at most one registered table has the name) and in which the table
registered under `name`, if there is one, has no user left and is not being
dropped, `delete_table(name)` returns; afterwards the probe
`sample_table_open(name, 0, 0, 0)` returns null and leaves the state as it is, the
table that was registered under `name` is no longer registered and its memory is
freed, and every other registered table is still registered with its attributes
and rows unchanged. -/
theorem drop_removes_table (name : List Nat) (w : World)
    (hvalid : ∀ q ∈ w.sample_tables.head, ∃ u, w.table q = .ok u)
    (hnodup : w.sample_tables.head.Nodup)
    (huniq : ∀ q1 ∈ w.sample_tables.head, ∀ q2 ∈ w.sample_tables.head, ∀ u1 u2,
      w.table q1 = .ok u1 → w.table q2 = .ok u2 → u1.name = name → u2.name = name → q1 = q2)
    (hclosed : ∀ q ∈ w.sample_tables.head, ∀ u, w.table q = .ok u → u.name = name →
      u.users = 0 ∧ u.dropping = false) :
    ∃ w2, ha_sample.delete_table name w = .ok (true, w2) ∧
      sample_table_open name 0 0 0 w2 = .ok (none, w2) ∧
      (∀ q ∈ w.sample_tables.head, ∀ u, w.table q = .ok u → u.name ≠ name →
        q ∈ w2.sample_tables.head ∧ w2.table q = .ok u) ∧
      (∀ q ∈ w.sample_tables.head, ∀ u, w.table q = .ok u → u.name = name →
        q ∉ w2.sample_tables.head ∧ w2.heap[q]? = some none) := by
  obtain ⟨r, hfind, hsome, hnone⟩ := find_table_spec w name w.sample_tables.head hvalid
  have hprobe := sample_table_open_probe name 0 0 0 w r (Or.inl rfl) hfind
  cases r with
  | none =>
    refine ⟨w, ?_, hprobe, ?_, ?_⟩
    · simp only [ha_sample.delete_table, ha_sample.delete_table_enter, hprobe]
    · intro q hq u hu _
      exact ⟨hq, hu⟩
    · intro q hq u hu hn
      exact absurd hn (hnone rfl q hq u hu)
  | some p =>
    obtain ⟨hp, t, ht, hname⟩ := hsome p rfl
    obtain ⟨husers, hdrop⟩ := hclosed p hp t ht hname
    have hplt := table_lt w p t ht
    obtain ⟨pre, post, hsplit, hpre, hwalk⟩ := list_delete_walk_some p w.sample_tables.head hp
    have hpost : p ∉ post := by
      have hnd := hnodup
      rw [hsplit] at hnd
      have := (List.nodup_append.mp hnd).2.1
      exact (List.nodup_cons.mp this).1
    have hmem : ∀ q, q ∈ pre ++ post ↔ q ∈ w.sample_tables.head ∧ q ≠ p := by
      intro q
      rw [hsplit]
      simp only [List.mem_append, List.mem_cons]
      constructor
      · rintro (h1 | h1)
        · exact ⟨Or.inl h1, fun e => hpre (e ▸ h1)⟩
        · exact ⟨Or.inr (Or.inr h1), fun e => hpost (e ▸ h1)⟩
      · rintro ⟨h1 | h1 | h1, h2⟩
        · exact Or.inl h1
        · exact absurd h1 h2
        · exact Or.inr h1
    let t1 : SampleTable := { t with users := (t.users + 1) % UINT_MOD, dropping := true }
    let w1 : World := w.setTable p t1
    have ht1 : w1.table p = .ok t1 := table_setTable_self w p t t1 ht
    have henter : ha_sample.delete_table_enter name w = .ok (some p, w1) := by
      simp only [ha_sample.delete_table_enter, hprobe, ht, hdrop]
      rfl
    have hu1 : ¬ t1.users > 1 := by
      show ¬ (t.users + 1) % UINT_MOD > 1
      rw [husers]
      decide
    let w2 : World := { w1 with
      sample_tables := ⟨pre ++ post, (w.sample_tables.length + (UINT64_MOD - 1)) % UINT64_MOD⟩
      heap := w1.heap.set p none
      removed := ((t1.name ++ sample_ext).take 1023) :: w1.removed }
    have hdropped : sample_table_drop p true w1 = .ok w2 := by
      have hd : list_delete w1.sample_tables p
          = (true, ⟨pre ++ post, (w.sample_tables.length + (UINT64_MOD - 1)) % UINT64_MOD⟩) := by
        show list_delete w.sample_tables p = _
        simp only [list_delete, hwalk]
      simp only [sample_table_drop, ht1, hd, if_true]
    have hpoll : ha_sample.delete_table_poll p w1 = .ok (true, w2) := by
      simp only [ha_sample.delete_table_poll, ht1, if_neg hu1, hdropped]
    have htab : ∀ q, q ≠ p → w2.table q = w.table q := by
      intro q hq
      have h1 : w2.table q = w1.table q := by
        simp [w2, World.table, List.getElem?_set, Ne.symm hq]
      rw [h1]
      exact table_setTable_ne w p q t1 hq
    have hvalid2 : ∀ q ∈ w2.sample_tables.head, ∃ u, w2.table q = .ok u := by
      intro q hq
      have hq2 := (hmem q).mp hq
      rw [htab q hq2.2]
      exact hvalid q hq2.1
    obtain ⟨r2, hfind2, hsome2, _⟩ := find_table_spec w2 name w2.sample_tables.head hvalid2
    have hr2 : r2 = none := by
      cases r2 with
      | none => rfl
      | some q =>
        obtain ⟨hq, u, hu, hn⟩ := hsome2 q rfl
        have hq2 := (hmem q).mp hq
        rw [htab q hq2.2] at hu
        exact absurd (huniq q hq2.1 p hp u t hu ht hn hname) hq2.2
    subst hr2
    refine ⟨w2, ?_, sample_table_open_probe name 0 0 0 w2 none (Or.inl rfl) hfind2, ?_, ?_⟩
    · simp only [ha_sample.delete_table, henter, hpoll]
    · intro q hq u hu hn
      have hqp : q ≠ p := by
        intro e
        subst e
        rw [ht] at hu
        injection hu with hu
        subst hu
        exact hn hname
      exact ⟨(hmem q).mpr ⟨hq, hqp⟩, by rw [htab q hqp]; exact hu⟩
    · intro q hq u hu hn
      have hqp : q = p := huniq q hq p hp u t hu ht hn hname
      subst hqp
      refine ⟨fun hc => ((hmem q).mp hc).2 rfl, ?_⟩
      simp [w2, w1, World.setTable, List.getElem?_set, hplt]

/-- Witness of X2: in a registry that lists the tables `a` (no user) and `b`,
`delete_table` of `a` frees `a`, removes its file and leaves `b` registered with
its row. -/
theorem drop_removes_table_witness :
    (∃ w2, ha_sample.delete_table [97] world_two = .ok (true, w2) ∧
      sample_table_open [97] 0 0 0 w2 = .ok (none, w2) ∧
      (∀ q ∈ world_two.sample_tables.head, ∀ u, world_two.table q = .ok u → u.name ≠ [97] →
        q ∈ w2.sample_tables.head ∧ w2.table q = .ok u) ∧
      (∀ q ∈ world_two.sample_tables.head, ∀ u, world_two.table q = .ok u → u.name = [97] →
        q ∉ w2.sample_tables.head ∧ w2.heap[q]? = some none)) ∧
    ha_sample.delete_table [97] world_two
      = .ok (true,
          ⟨[none, some ⟨[98], 1, 1, 1, false, 3, ⟨[⟨[SAMPLE_NULL], 1⟩], 1⟩⟩], ⟨[1], 1⟩, 3, 1, 3, 0,
            [[97, 46, 115, 97, 109, 112, 108, 101]]⟩) :=
  ⟨drop_removes_table [97] world_two
      (by
        intro q hq
        have hq2 : q = 1 ∨ q = 0 := by simpa [world_two] using hq
        rcases hq2 with e | e <;> subst e <;> exact ⟨_, rfl⟩)
      (by decide)
      (by
        intro q1 hq1 q2 hq2 u1 u2 h1 h2 n1 n2
        have a1 : q1 = 1 ∨ q1 = 0 := by simpa [world_two] using hq1
        have a2 : q2 = 1 ∨ q2 = 0 := by simpa [world_two] using hq2
        rcases a1 with e1 | e1 <;> rcases a2 with e2 | e2 <;> subst e1 <;> subst e2 <;>
          first
          | rfl
          | (exfalso; cases h1; cases h2; revert n1 n2; decide))
      (by
        intro q hq u hu hn
        have a : q = 1 ∨ q = 0 := by simpa [world_two] using hq
        rcases a with e | e <;> subst e <;> cases hu <;> first
          | exact ⟨rfl, rfl⟩
          | (exfalso; revert hn; decide)),
    by decide⟩

/-- C12 (divergence of the code): the table that `open` creates under the name `a`
is never put into the registry, so `rename_table("a", "b")` finds no table and does
nothing. After a handle has opened and closed `a`, `rename_table` returns with the
state unchanged, the lookup of `b` returns null, and the table created by the open
still carries the name `a`. -/
theorem rename_loses_table :
    (ha_sample.create 2).open [97] world_init
      = .ok (0, ⟨2, some 0, none, none, 0, 1⟩,
          ⟨[some ⟨[97], 1, 2, 1, false, 3, ⟨[], 0⟩⟩], ⟨[], 0⟩, 2, 1, 3, 0, []⟩) ∧
    (⟨2, some 0, none, none, 0, 1⟩ : ha_sample).close
        ⟨[some ⟨[97], 1, 2, 1, false, 3, ⟨[], 0⟩⟩], ⟨[], 0⟩, 2, 1, 3, 0, []⟩
      = .ok (0, ⟨2, none, none, none, 0, 1⟩,
          ⟨[some ⟨[97], 0, 2, 1, false, 3, ⟨[], 0⟩⟩], ⟨[], 0⟩, 2, 1, 3, 0, []⟩) ∧
    (ha_sample.create 2).rename_table [97] [98]
        ⟨[some ⟨[97], 0, 2, 1, false, 3, ⟨[], 0⟩⟩], ⟨[], 0⟩, 2, 1, 3, 0, []⟩
      = .ok (true, ⟨[some ⟨[97], 0, 2, 1, false, 3, ⟨[], 0⟩⟩], ⟨[], 0⟩, 2, 1, 3, 0, []⟩) ∧
    sample_table_open [98] 0 0 0
        ⟨[some ⟨[97], 0, 2, 1, false, 3, ⟨[], 0⟩⟩], ⟨[], 0⟩, 2, 1, 3, 0, []⟩
      = .ok (none, ⟨[some ⟨[97], 0, 2, 1, false, 3, ⟨[], 0⟩⟩], ⟨[], 0⟩, 2, 1, 3, 0, []⟩) := by
  decide

/-- C13: for a handle of a table with `rate >= 1` and every draw `r`: when
`r mod rate != 0`, `write_row` returns 0 without encoding the row (whatever the
host row is) and leaves the handle, its counter included, and the state, the row
collection and its length included, as they are; when `r mod rate = 0` it encodes
the row with `record_place`, inserts it if the try-lock succeeds and the table is
not full, and adds one to the counter; with `rate = 1` every draw is admitted. -/
theorem admission_rule (h : ha_sample) (w : World) (p : Nat) (t : SampleTable)
    (buf : List FieldVal) (r : Nat) (trylock : Bool)
    (hp : h.sample_table = some p) (ht : w.table p = .ok t) (hrate : 1 ≤ t.rate) :
    (r % t.rate ≠ 0 → h.write_row buf r trylock w = .ok (0, h, w)) ∧
    (r % t.rate = 0 →
      h.write_row buf r trylock w
        = match record_place t.width buf with
          | .error e => .error e
          | .ok row =>
            .ok (0, { h with counter_rows_inserted := (h.counter_rows_inserted + 1) % UINT_MOD },
              if trylock = true ∧ t.limit > t.rows.length then
                w.setTable p { t with rows := list_insert_head t.rows row }
              else w)) ∧
    (t.rate = 1 → r % t.rate = 0) := by
  have hrate0 : t.rate ≠ 0 := by omega
  refine ⟨fun hr => write_row_reject h w p t buf r trylock hp ht hrate0 hr, ?_, ?_⟩
  · intro hr
    simp only [ha_sample.write_row, hp, ht, if_neg hrate0, if_pos hr]
  · intro h1
    rw [h1]
    exact Nat.mod_one r

/-- Witness of C13: rate 3, the draw 7 is rejected and the draw 9 is admitted. -/
theorem admission_rule_witness :
    (⟨1, some 0, none, none, 4, 1⟩ : ha_sample).write_row [.int 5] 7 true
        ⟨[some ⟨[116], 1, 1, 3, false, 3, ⟨[], 0⟩⟩], ⟨[], 0⟩, 2, 3, 3, 0, []⟩
      = .ok (0, ⟨1, some 0, none, none, 4, 1⟩,
          ⟨[some ⟨[116], 1, 1, 3, false, 3, ⟨[], 0⟩⟩], ⟨[], 0⟩, 2, 3, 3, 0, []⟩) ∧
    (⟨1, some 0, none, none, 4, 1⟩ : ha_sample).write_row [.int 5] 9 true
        ⟨[some ⟨[116], 1, 1, 3, false, 3, ⟨[], 0⟩⟩], ⟨[], 0⟩, 2, 3, 3, 0, []⟩
      = .ok (0, ⟨1, some 0, none, none, 5, 1⟩,
          ⟨[some ⟨[116], 1, 1, 3, false, 3, ⟨[⟨[2, 5], 2⟩], 1⟩⟩], ⟨[], 0⟩, 2, 3, 3, 0, []⟩) :=
  ⟨(admission_rule ⟨1, some 0, none, none, 4, 1⟩
      ⟨[some ⟨[116], 1, 1, 3, false, 3, ⟨[], 0⟩⟩], ⟨[], 0⟩, 2, 3, 3, 0, []⟩ 0
      ⟨[116], 1, 1, 3, false, 3, ⟨[], 0⟩⟩ [.int 5] 7 true rfl rfl (by decide)).1 (by decide),
    (admission_rule ⟨1, some 0, none, none, 4, 1⟩
      ⟨[some ⟨[116], 1, 1, 3, false, 3, ⟨[], 0⟩⟩], ⟨[], 0⟩, 2, 3, 3, 0, []⟩ 0
      ⟨[116], 1, 1, 3, false, 3, ⟨[], 0⟩⟩ [.int 5] 9 true rfl rfl (by decide)).2.1 (by decide)⟩

/-- C14: for a handle of a table with `rate >= 1`, every table state, every draw
and every try-lock outcome, `write_row` on a host row of valid field values, with
no more columns than the table and an encoding shorter than `2^32` bytes, returns
0, whether the row was rejected by the draw, discarded or inserted. -/
theorem writes_never_fail (h : ha_sample) (w : World) (p : Nat) (t : SampleTable)
    (buf : List FieldVal) (r : Nat) (trylock : Bool)
    (hp : h.sample_table = some p) (ht : w.table p = .ok t) (hrate : 1 ≤ t.rate)
    (hcols : buf.length ≤ t.width) (hv : ∀ f ∈ buf, f.valid)
    (hlt : place_length buf < UINT_MOD) :
    ∃ h2 w2, h.write_row buf r trylock w = .ok (0, h2, w2) := by
  have hrate0 : t.rate ≠ 0 := by omega
  by_cases hr : r % t.rate = 0
  · exact ⟨_, _, write_row_accept h w p t buf r trylock _ hp ht hrate0 hr
      (record_place_enc t.width buf hcols hv hlt)⟩
  · exact ⟨_, _, write_row_reject h w p t buf r trylock hp ht hrate0 hr⟩

/-- Witness of C14: a write on a full table whose try-lock fails. -/
theorem writes_never_fail_witness :
    ∃ h2 w2,
      (⟨1, some 0, none, none, 4, 1⟩ : ha_sample).write_row [.int 5] 9 false
          ⟨[some ⟨[116], 1, 1, 3, false, 1, ⟨[⟨[1], 1⟩], 1⟩⟩], ⟨[], 0⟩, 2, 3, 1, 0, []⟩
        = .ok (0, h2, w2) :=
  writes_never_fail ⟨1, some 0, none, none, 4, 1⟩
    ⟨[some ⟨[116], 1, 1, 3, false, 1, ⟨[⟨[1], 1⟩], 1⟩⟩], ⟨[], 0⟩, 2, 3, 1, 0, []⟩ 0
    ⟨[116], 1, 1, 3, false, 1, ⟨[⟨[1], 1⟩], 1⟩⟩ [.int 5] 9 false rfl rfl (by decide) (by decide)
    (by decide) (by decide)

/-- C15: let a session hold the snapshot `S` (it has made its swap) and let a
`write_row` call insert a row into the table after that swap. Then any number of
further `rnd_next` calls of the session return the rows of `S` and then
`HA_ERR_END_OF_FILE` again and again, they leave the state as it is (no new swap:
the inserted row stays in the table and is never returned), and after `rnd_init`
the first `rnd_next` of the next session returns the inserted row. -/
theorem sessions_single_pass (h : ha_sample) (w : World) (p : Nat) (t : SampleTable)
    (S : List SampleRow) (vals : List (List (Option FieldVal)))
    (buf : List FieldVal) (r : Nat) (row : SampleRow) (vs : List (Option FieldVal))
    (hp : h.sample_table = some p) (ht : w.table p = .ok t)
    (hs : h.sample_rows = some ⟨S, S.length⟩) (hlen : S.length < UINT64_MOD)
    (hdec : List.Forall₂ (fun row vs => record_store t.width (some row) = .ok (0, vs)) S vals)
    (hrate : t.rate ≠ 0) (hadm : r % t.rate = 0) (hcap : t.limit > t.rows.length)
    (hlim : t.limit < UINT_MOD)
    (henc : record_place t.width buf = .ok row)
    (hdec2 : record_store t.width (some row) = .ok (0, vs)) :
    ∃ h1 w1 t1, h.write_row buf r true w = .ok (0, h1, w1) ∧
      w1.table p = .ok t1 ∧ t1.rows.head = row :: t.rows.head ∧
      ∀ k, ∃ h2,
        h1.scan (S.length + k) w1
          = .ok (vals.map (fun vs => (0, vs)) ++ List.replicate k (HA_ERR_END_OF_FILE, []),
              h2, w1) ∧
        ∃ h3 w3,
          (h2.rnd_init true w1).2.1.rnd_next (h2.rnd_init true w1).2.2 = .ok (0, vs, h3, w3) := by
  have hstep := write_row_accept h w p t buf r true row hp ht hrate hadm henc
  rw [if_pos ⟨rfl, hcap⟩] at hstep
  have ht1 := table_setTable_self w p t { t with rows := list_insert_head t.rows row } ht
  refine ⟨_, _, _, hstep, ht1, rfl, ?_⟩
  intro k
  obtain ⟨r2, hscan⟩ := scan_snapshot
    (w.setTable p { t with rows := list_insert_head t.rows row }) p
    { t with rows := list_insert_head t.rows row } ht1 S vals hdec k
    ({ h with counter_rows_inserted := (h.counter_rows_inserted + 1) % UINT_MOD } : ha_sample)
    hs hlen hp
  refine ⟨_, hscan, ?_⟩
  have hnext : ∀ hh : ha_sample, hh.sample_table = some p →
      ∃ h3 w3,
        (hh.rnd_init true
            (w.setTable p { t with rows := list_insert_head t.rows row })).2.1.rnd_next
          (hh.rnd_init true (w.setTable p { t with rows := list_insert_head t.rows row })).2.2
          = .ok (0, vs, h3, w3) := by
    intro hh hhp
    have e := rnd_next_fresh
      (hh.rnd_init true (w.setTable p { t with rows := list_insert_head t.rows row })).2.1
      (w.setTable p { t with rows := list_insert_head t.rows row }) p
      { t with rows := list_insert_head t.rows row } rfl hhp ht1
    have ht2 := table_setTable_self
      (w.setTable p { t with rows := list_insert_head t.rows row }) p
      { t with rows := list_insert_head t.rows row }
      { t with rows := list_alloc } ht1
    have hn : (t.rows.length + 1) % UINT64_MOD ≠ 0 := by
      simp only [UINT_MOD] at hlim
      simp only [UINT64_MOD]
      omega
    have e2 := rnd_next_snapshot_cons
      ({ (hh.rnd_init true (w.setTable p { t with rows := list_insert_head t.rows row })).2.1
          with sample_rows := some (list_insert_head t.rows row) } : ha_sample)
      ((w.setTable p { t with rows := list_insert_head t.rows row }).setTable p
        { t with rows := list_alloc }) p { t with rows := list_alloc } row t.rows.head
      ((t.rows.length + 1) % UINT64_MOD) 0 vs rfl hn hhp ht2 hdec2
    exact ⟨_, _, e.trans e2⟩
  exact hnext _ hp

/-- Witness of C15: a session with a one-row snapshot, a row written after the
swap, three further `rnd_next` calls, and the first call of the next session. -/
theorem sessions_single_pass_witness :
    ∃ h1 w1 t1,
      (⟨1, some 0, some ⟨[⟨[2, 7], 2⟩], 1⟩, none, 0, 1⟩ : ha_sample).write_row [.int 9] 4 true
          ⟨[some ⟨[116], 1, 1, 2, false, 3, ⟨[], 0⟩⟩], ⟨[], 0⟩, 2, 2, 3, 0, []⟩
        = .ok (0, h1, w1) ∧
      w1.table 0 = .ok t1 ∧ t1.rows.head = [⟨[2, 9], 2⟩] ∧
      ∀ k, ∃ h2,
        h1.scan (1 + k) w1
          = .ok ([(0, [some (.int 7)])] ++ List.replicate k (HA_ERR_END_OF_FILE, []), h2, w1) ∧
        ∃ h3 w3,
          (h2.rnd_init true w1).2.1.rnd_next (h2.rnd_init true w1).2.2
            = .ok (0, [some (.int 9)], h3, w3) :=
  sessions_single_pass ⟨1, some 0, some ⟨[⟨[2, 7], 2⟩], 1⟩, none, 0, 1⟩
    ⟨[some ⟨[116], 1, 1, 2, false, 3, ⟨[], 0⟩⟩], ⟨[], 0⟩, 2, 2, 3, 0, []⟩ 0
    ⟨[116], 1, 1, 2, false, 3, ⟨[], 0⟩⟩ [⟨[2, 7], 2⟩] [[some (.int 7)]] [.int 9] 4 ⟨[2, 9], 2⟩
    [some (.int 9)] rfl rfl rfl (by decide)
    (List.Forall₂.cons (by decide) List.Forall₂.nil) (by decide) (by decide) (by decide)
    (by decide) (by decide) (by decide)

/-- One turn of the wait loop of `delete_table` and of `rename_table`: with a user
count above 1 the state is left as it is and the call stays in the loop; the call
leaves the loop, and then frees the table or changes its name, only with a user
count of at most 1. -/
theorem wait_loop_turn (h : ha_sample) (to_name : List Nat) (table : Nat) (w : World)
    (t : SampleTable) (ht : w.table table = .ok t) :
    (t.users > 1 →
      ha_sample.delete_table_poll table w = .ok (false, w) ∧
      h.rename_table_poll to_name table w = .ok (false, w)) ∧
    (∀ w2, ha_sample.delete_table_poll table w = .ok (true, w2) →
      t.users ≤ 1 ∧ w2.heap[table]? = some none) ∧
    (∀ w2, h.rename_table_poll to_name table w = .ok (true, w2) →
      t.users ≤ 1 ∧ ∃ t2, w2.table table = .ok t2 ∧ t2.name = to_name ∧ t2.rows = t.rows) ∧
    (t.users ≤ 1 → ∃ w2, ha_sample.delete_table_poll table w = .ok (true, w2)) ∧
    (t.users ≤ 1 → ∃ w2, h.rename_table_poll to_name table w = .ok (true, w2)) := by
  have hlt := table_lt w table t ht
  refine ⟨?_, ?_, ?_, ?_, ?_⟩
  · intro hu
    simp only [ha_sample.delete_table_poll, ha_sample.rename_table_poll, ht, if_pos hu,
      and_self]
  · intro w2 hrun
    by_cases hu : t.users > 1
    · simp only [ha_sample.delete_table_poll, ht, if_pos hu] at hrun
      injection hrun with hrun
      injection hrun with hb _
      cases hb
    · simp only [ha_sample.delete_table_poll, ht, if_neg hu, sample_table_drop, if_true] at hrun
      injection hrun with hrun
      injection hrun with _ hw
      subst hw
      exact ⟨by omega, by simp [hlt]⟩
  · intro w2 hrun
    by_cases hu : t.users > 1
    · simp only [ha_sample.rename_table_poll, ht, if_pos hu] at hrun
      injection hrun with hrun
      injection hrun with hb _
      cases hb
    · simp only [ha_sample.rename_table_poll, ht, if_neg hu] at hrun
      injection hrun with hrun
      injection hrun with _ hw
      subst hw
      refine ⟨by omega, _, table_setTable_self w table t _ ht, ?_, ?_⟩
      · split_ifs <;> rfl
      · split_ifs <;> rfl
  · intro hu
    have hu2 : ¬ t.users > 1 := by omega
    simp only [ha_sample.delete_table_poll, ht, if_neg hu2, sample_table_drop]
    exact ⟨_, rfl⟩
  · intro hu
    have hu2 : ¬ t.users > 1 := by omega
    simp only [ha_sample.rename_table_poll, ht, if_neg hu2]
    exact ⟨_, rfl⟩

/-- C16 (divergence of the code): the table that `open` creates is never put into
the registry, so `delete_table` and `rename_table` do not find it and never reach
their wait loop. While a handle holds the table `a` open (user count 1),
`delete_table("a")` and `rename_table("a", "b")`, called through another handle,
return at once with the state unchanged, instead of waiting for the handle to
close. -/
theorem open_handle_not_awaited :
    (ha_sample.create 2).open [97] world_init
      = .ok (0, ⟨2, some 0, none, none, 0, 1⟩,
          ⟨[some ⟨[97], 1, 2, 1, false, 3, ⟨[], 0⟩⟩], ⟨[], 0⟩, 2, 1, 3, 0, []⟩) ∧
    ha_sample.delete_table [97]
        ⟨[some ⟨[97], 1, 2, 1, false, 3, ⟨[], 0⟩⟩], ⟨[], 0⟩, 2, 1, 3, 0, []⟩
      = .ok (true, ⟨[some ⟨[97], 1, 2, 1, false, 3, ⟨[], 0⟩⟩], ⟨[], 0⟩, 2, 1, 3, 0, []⟩) ∧
    (ha_sample.create 2).rename_table [97] [98]
        ⟨[some ⟨[97], 1, 2, 1, false, 3, ⟨[], 0⟩⟩], ⟨[], 0⟩, 2, 1, 3, 0, []⟩
      = .ok (true, ⟨[some ⟨[97], 1, 2, 1, false, 3, ⟨[], 0⟩⟩], ⟨[], 0⟩, 2, 1, 3, 0, []⟩) := by
  decide

/-- X3: for a table that is registered under `name`, is not being dropped and has
`users` handles open: `delete_table(name)` takes its own reference and marks the
table; with `users >= 1` it stays in its wait loop, the table still allocated, and
with `users = 0` it frees the table and returns. `rename_table(name, to)`, called
through a handle that does not hold the table, takes its own reference; with
`users >= 1` it stays in its wait loop, the name unchanged, and with `users = 0` it
changes the name, gives its reference back and returns. Called through a handle
that holds the table, it waits exactly when `users > 1`. -/
theorem wait_loops_registered (name to_name : List Nat) (h : ha_sample) (w : World) (p : Nat)
    (t : SampleTable)
    (hfind : find_table w name w.sample_tables.head = .ok (some p))
    (ht : w.table p = .ok t) (hdrop : t.dropping = false) (hu : t.users + 1 < UINT_MOD) :
    (1 ≤ t.users →
      ha_sample.delete_table name w
        = .ok (false, w.setTable p { t with users := t.users + 1, dropping := true })) ∧
    (t.users = 0 →
      ∃ w2, ha_sample.delete_table name w = .ok (true, w2) ∧ w2.heap[p]? = some none) ∧
    (h.sample_table ≠ some p → 1 ≤ t.users →
      h.rename_table name to_name w
        = .ok (false, w.setTable p { t with users := t.users + 1 })) ∧
    (h.sample_table ≠ some p → t.users = 0 →
      ∃ w2, h.rename_table name to_name w = .ok (true, w2) ∧
        w2.table p = .ok { t with name := to_name }) ∧
    (h.sample_table = some p → 1 < t.users →
      h.rename_table name to_name w = .ok (false, w)) ∧
    (h.sample_table = some p → t.users ≤ 1 →
      h.rename_table name to_name w = .ok (true, w.setTable p { t with name := to_name })) := by
  have hprobe := sample_table_open_probe name 0 0 0 w (some p) (Or.inl rfl) hfind
  have hlt := table_lt w p t ht
  have hmod : (t.users + 1) % UINT_MOD = t.users + 1 := Nat.mod_eq_of_lt hu
  have henter : ha_sample.delete_table_enter name w
      = .ok (some p, w.setTable p { t with users := t.users + 1, dropping := true }) := by
    simp only [ha_sample.delete_table_enter, hprobe, ht, hdrop, hmod]
    rfl
  have ht1 := table_setTable_self w p t { t with users := t.users + 1, dropping := true } ht
  have ht2 := table_setTable_self w p t { t with users := t.users + 1 } ht
  refine ⟨?_, ?_, ?_, ?_, ?_, ?_⟩
  · intro h1
    have hgt : t.users + 1 > 1 := by omega
    simp only [ha_sample.delete_table, henter, ha_sample.delete_table_poll, ht1, if_pos hgt]
  · intro h0
    have hgt : ¬ t.users + 1 > 1 := by omega
    simp only [ha_sample.delete_table, henter, ha_sample.delete_table_poll, ht1, if_neg hgt,
      sample_table_drop]
    exact ⟨_, rfl, by simp [World.setTable, hlt]⟩
  · intro hne h1
    have hgt : t.users + 1 > 1 := by omega
    simp only [ha_sample.rename_table, ha_sample.rename_table_enter, hprobe, ht, if_pos hne,
      hmod, ha_sample.rename_table_poll, ht2, if_pos hgt]
  · intro hne h0
    have hgt : ¬ t.users + 1 > 1 := by omega
    simp only [ha_sample.rename_table, ha_sample.rename_table_enter, hprobe, ht, if_pos hne,
      hmod, ha_sample.rename_table_poll, ht2, if_neg hgt]
    refine ⟨_, rfl, ?_⟩
    rw [table_setTable_self _ p _ _ ht2]
    have hz : (t.users + 1 + (UINT_MOD - 1)) % UINT_MOD = t.users := by
      rw [h0]
      decide
    simp only [if_pos hne, hz]
  · intro he h1
    have hne : ¬ (h.sample_table ≠ some p) := fun hc => hc he
    simp only [ha_sample.rename_table, ha_sample.rename_table_enter, hprobe, ht, if_neg hne,
      ha_sample.rename_table_poll, if_pos h1]
  · intro he h1
    have hne : ¬ (h.sample_table ≠ some p) := fun hc => hc he
    have hgt : ¬ t.users > 1 := by omega
    simp only [ha_sample.rename_table, ha_sample.rename_table_enter, hprobe, ht, if_neg hne,
      ha_sample.rename_table_poll, if_neg hgt]

/-- Witness of X3: the table `b` of `world_two` has one user: `delete_table` and
`rename_table` wait. -/
theorem wait_loops_registered_witness :
    ha_sample.delete_table [98] world_two
      = .ok (false,
          ⟨[some ⟨[97], 0, 2, 1, false, 3, ⟨[], 0⟩⟩,
            some ⟨[98], 2, 1, 1, true, 3, ⟨[⟨[SAMPLE_NULL], 1⟩], 1⟩⟩],
           ⟨[1, 0], 2⟩, 3, 1, 3, 0, []⟩) ∧
    (ha_sample.create 1).rename_table [98] [99] world_two
      = .ok (false,
          ⟨[some ⟨[97], 0, 2, 1, false, 3, ⟨[], 0⟩⟩,
            some ⟨[98], 2, 1, 1, false, 3, ⟨[⟨[SAMPLE_NULL], 1⟩], 1⟩⟩],
           ⟨[1, 0], 2⟩, 3, 1, 3, 0, []⟩) :=
  ⟨(wait_loops_registered [98] [99] (ha_sample.create 1) world_two 1
      ⟨[98], 1, 1, 1, false, 3, ⟨[⟨[SAMPLE_NULL], 1⟩], 1⟩⟩ (by decide) rfl rfl (by decide)).1
      (by decide),
    (wait_loops_registered [98] [99] (ha_sample.create 1) world_two 1
      ⟨[98], 1, 1, 1, false, 3, ⟨[⟨[SAMPLE_NULL], 1⟩], 1⟩⟩ (by decide) rfl rfl
      (by decide)).2.2.1 (by decide) (by decide)⟩

/-- C17: `update_row`, `delete_row`, `index_init`, `index_read`, `index_end` and
`rnd_pos` return `HA_ERR_WRONG_COMMAND` for every argument, every handle and every
state, and leave the handle (its scan state included) and the state (the row
collections included) as they are. -/
theorem unsupported_operations (h : ha_sample) (w : World)
    (old_data new_data buf : List FieldVal) (idx : Nat) (sorted : Bool)
    (rbuf key pos : List Nat) (key_len find_flag : Nat) :
    h.update_row old_data new_data w = (HA_ERR_WRONG_COMMAND, h, w) ∧
    h.delete_row buf w = (HA_ERR_WRONG_COMMAND, h, w) ∧
    h.index_init idx sorted w = (HA_ERR_WRONG_COMMAND, h, w) ∧
    h.index_read rbuf key key_len find_flag w = (HA_ERR_WRONG_COMMAND, h, w) ∧
    h.index_end w = (HA_ERR_WRONG_COMMAND, h, w) ∧
    h.rnd_pos rbuf pos w = (HA_ERR_WRONG_COMMAND, h, w) :=
  ⟨rfl, rfl, rfl, rfl, rfl, rfl⟩

/-- C19 (as stated) fails: `counter_rows_inserted` is a `uint`. On a handle whose
counter is `2^32 - 1` an admitted write sets the counter to 0; it does not increase
it by 1, and the counter no longer equals the number of admitted attempts. -/
theorem inserted_rows_counter_counterexample :
    (⟨1, some 0, none, none, 4294967295, 1⟩ : ha_sample).write_row [.int 5] 0 true
        ⟨[some ⟨[116], 1, 1, 1, false, 3, ⟨[], 0⟩⟩], ⟨[], 0⟩, 2, 1, 3, 0, []⟩
      = .ok (0, ⟨1, some 0, none, none, 0, 1⟩,
          ⟨[some ⟨[116], 1, 1, 1, false, 3, ⟨[⟨[2, 5], 2⟩], 1⟩⟩], ⟨[], 0⟩, 2, 1, 3, 0, []⟩) ∧
    (0 : Nat) ≠ 4294967295 + 1 := by
  decide

/-- C19 (amended): after any sequence of `write_row` calls that has run to its end
on a handle, the counter of the handle is its former value plus the number of
admitted draws (`r mod rate = 0`), reduced modulo `2^32`; every admitted write
counts, also when the row is discarded because the try-lock failed or the table
was full, a rejected write counts for nothing; and the table has gained at most as
many rows as there were admitted draws. For a single call this is an increase by
1, modulo `2^32`, when the draw admits the row and by 0 otherwise. -/
theorem inserted_rows_counter (p : Nat) (items : List (List FieldVal × Nat × Bool))
    (h : ha_sample) (w : World) (t : SampleTable) (h2 : ha_sample) (w2 : World)
    (hp : h.sample_table = some p) (ht : w.table p = .ok t)
    (hc : h.counter_rows_inserted < UINT_MOD)
    (hrun : h.write_rows items w = .ok (h2, w2)) :
    h2.counter_rows_inserted = (h.counter_rows_inserted + admitted t.rate items) % UINT_MOD ∧
    ∃ t2, w2.table p = .ok t2 ∧ t.rows.head.length ≤ t2.rows.head.length ∧
      t2.rows.head.length - t.rows.head.length ≤ admitted t.rate items := by
  obtain ⟨t2, a1, _, _, a4, a5, a6⟩ := write_rows_counter p items h w t h2 w2 hp ht hc hrun
  exact ⟨a4, t2, a1, a5, by omega⟩

/-- Witness of C19: rate 2 and capacity 1; of four writes three are admitted, one
of them is inserted, one finds the try-lock taken and one finds the table full;
the counter goes from 7 to 10. -/
theorem inserted_rows_counter_witness :
    (⟨1, some 0, none, none, 7, 1⟩ : ha_sample).write_rows
        [([.int 5], 4, false), ([.int 6], 3, true), ([.int 7], 8, true), ([.int 8], 0, true)]
        ⟨[some ⟨[116], 1, 1, 2, false, 1, ⟨[], 0⟩⟩], ⟨[], 0⟩, 2, 2, 1, 0, []⟩
      = .ok (⟨1, some 0, none, none, 10, 1⟩,
          ⟨[some ⟨[116], 1, 1, 2, false, 1, ⟨[⟨[2, 7], 2⟩], 1⟩⟩], ⟨[], 0⟩, 2, 2, 1, 0, []⟩) ∧
    (10 : Nat) = (7 + admitted 2
        [([.int 5], 4, false), ([.int 6], 3, true), ([.int 7], 8, true), ([.int 8], 0, true)])
      % UINT_MOD :=
  ⟨by decide,
    (inserted_rows_counter 0
      [([.int 5], 4, false), ([.int 6], 3, true), ([.int 7], 8, true), ([.int 8], 0, true)]
      ⟨1, some 0, none, none, 7, 1⟩
      ⟨[some ⟨[116], 1, 1, 2, false, 1, ⟨[], 0⟩⟩], ⟨[], 0⟩, 2, 2, 1, 0, []⟩
      ⟨[116], 1, 1, 2, false, 1, ⟨[], 0⟩⟩ ⟨1, some 0, none, none, 10, 1⟩
      ⟨[some ⟨[116], 1, 1, 2, false, 1, ⟨[⟨[2, 7], 2⟩], 1⟩⟩], ⟨[], 0⟩, 2, 2, 1, 0, []⟩
      rfl rfl (by decide) (by decide)).1⟩

/-- C20: for every list `l` and item `x`, `list_remove_head` after
`list_insert_head(l, x)` returns `x` and leaves `l` with its items and its length;
on an empty list `list_remove_head` returns `NULL` and changes nothing; hence, when
rows are written into an empty table of rate 1 whose capacity they do not exceed
and a session then scans the table, the session returns the rows in the reverse
order of their insertion, and then `HA_ERR_END_OF_FILE`. -/
theorem most_recent_first (h : ha_sample) (w : World) (p : Nat) (t : SampleTable)
    (items : List (List FieldVal × Nat × Bool)) (rows : List SampleRow)
    (vals : List (List (Option FieldVal)))
    (hp : h.sample_table = some p) (hs : h.sample_rows = none) (ht : w.table p = .ok t)
    (hfresh : t.rows = list_alloc) (hrate : t.rate = 1) (hlim : t.limit < UINT_MOD)
    (hfit : items.length ≤ t.limit)
    (henc : List.Forall₂
      (fun item row => record_place t.width item.1 = .ok row ∧ item.2.2 = true) items rows)
    (hdec : List.Forall₂ (fun row vs => record_store t.width (some row) = .ok (0, vs))
      rows vals) :
    (∀ (α : Type) (l : list_t α) (x : α), l.length < UINT64_MOD →
      list_remove_head (list_insert_head l x) = .ok (some x, l)) ∧
    (∀ (α : Type) (l : list_t α), l.head = [] → list_remove_head l = .ok (none, l)) ∧
    ∃ h1 w1 h2 w2, h.write_rows items w = .ok (h1, w1) ∧
      h1.scan (items.length + 1) w1
        = .ok (vals.reverse.map (fun vs => (0, vs)) ++ [(HA_ERR_END_OF_FILE, [])], h2, w2) := by
  refine ⟨fun α l x hl => list_remove_head_insert_head l x hl, ?_, ?_⟩
  · intro α l hl
    obtain ⟨xs, n⟩ := l
    simp only at hl
    subst hl
    rfl
  · have hlim2 : t.limit < UINT64_MOD := by
      simp only [UINT_MOD] at hlim
      simp only [UINT64_MOD]
      omega
    obtain ⟨c, w1, h1, h2⟩ := write_rows_fill p t.width items rows henc h w t hp ht rfl hrate
      (by rw [hfresh]; rfl) hlim2
    have hl := henc.length_eq
    have hrows : ({ t with rows :=
        ⟨(rows.take (t.limit - t.rows.head.length)).reverse ++ t.rows.head,
          t.rows.head.length + min rows.length (t.limit - t.rows.head.length)⟩ } : SampleTable)
        = { t with rows := ⟨rows.reverse, rows.reverse.length⟩ } := by
      simp only [hfresh, list_alloc, List.length_nil, Nat.sub_zero, List.append_nil,
        Nat.zero_add, List.length_reverse]
      rw [List.take_of_length_le (by omega), Nat.min_eq_left (by omega)]
    rw [hrows] at h2
    have hfr := scan_fresh ({ h with counter_rows_inserted := c } : ha_sample) w1 p _
      rows.reverse.length hs hp h2
    have ht3 := table_setTable_self w1 p _
      ({ t with rows := list_alloc } : SampleTable) h2
    obtain ⟨r, hscan⟩ := scan_snapshot
      (w1.setTable p { t with rows := list_alloc }) p { t with rows := list_alloc } ht3
      rows.reverse vals.reverse (List.forall₂_reverse_iff.mpr hdec) 1
      ({ h with counter_rows_inserted := c, sample_rows := some ⟨rows.reverse,
          rows.reverse.length⟩ } : ha_sample) rfl
      (by rw [List.length_reverse]; omega) hp
    refine ⟨({ h with counter_rows_inserted := c } : ha_sample), w1,
      ({ h with counter_rows_inserted := c, sample_rows := some ⟨[], 0⟩, sample_row := r } :
        ha_sample),
      w1.setTable p { t with rows := list_alloc }, h1, ?_⟩
    have hn : items.length + 1 = rows.reverse.length + 1 := by
      rw [List.length_reverse, hl]
    rw [hn, hfr]
    exact hscan

/-- Witness of C20: three rows written and scanned back, the last one first. -/
theorem most_recent_first_witness :
    ∃ h1 w1 h2 w2, handle_open.write_rows four_rows.dropLast world_open = .ok (h1, w1) ∧
      h1.scan 4 w1
        = .ok ([(0, [some (.int 3), some (.str [99])]), (0, [some (.int 2), some (.str [98])]),
                (0, [some (.int 1), some (.str [97])]), (HA_ERR_END_OF_FILE, [])], h2, w2) :=
  (most_recent_first handle_open world_open 0 ⟨[116], 1, 2, 1, false, 3, ⟨[], 0⟩⟩
    four_rows.dropLast
    [⟨[2, 1, 6, 1, 97], 5⟩, ⟨[2, 2, 6, 1, 98], 5⟩, ⟨[2, 3, 6, 1, 99], 5⟩]
    [[some (.int 1), some (.str [97])], [some (.int 2), some (.str [98])],
      [some (.int 3), some (.str [99])]]
    rfl rfl rfl rfl rfl (by decide) (by decide)
    (List.Forall₂.cons (by decide) (List.Forall₂.cons (by decide)
      (List.Forall₂.cons (by decide) List.Forall₂.nil)))
    (List.Forall₂.cons (by decide) (List.Forall₂.cons (by decide)
      (List.Forall₂.cons (by decide) List.Forall₂.nil)))).2.2

/-- C22: after `sample_init_func` has set the seed counter to 1, the `n`-th
successful `open` of a handle (for a host table with at least one column, with
`sample_rate` not 0) seeds the generator of the handle with the value `n` and
leaves the counter at `n + 1`; so the seeds of any number of opens below `2^64 - 1`,
opens of the same table name included, are pairwise different. -/
theorem distinct_seeds (w0 : World) (reqs : List (Nat × List Nat))
    (hr : w0.sample_rate ≠ 0) (hf : ∀ q ∈ reqs, q.1 ≠ 0)
    (hlt : reqs.length + 1 < UINT64_MOD) :
    ∃ hs w2, open_all reqs (sample_init_func w0) = .ok (hs, w2) ∧
      hs.map (fun h => h.sample_rand) = List.range' 1 reqs.length ∧
      w2.sample_seed = reqs.length + 1 ∧
      (hs.map (fun h => h.sample_rand)).Nodup := by
  obtain ⟨hs, w2, a1, a2, a3⟩ := open_all_fresh reqs (sample_init_func w0) rfl hr hf
    (by show 1 + reqs.length < UINT64_MOD; omega)
  refine ⟨hs, w2, a1, a2, ?_, ?_⟩
  · rw [a3]
    show 1 + reqs.length = reqs.length + 1
    omega
  · rw [a2]
    exact List.nodup_range' 1 reqs.length

/-- Witness of C22: three opens, two of them of the same name. -/
theorem distinct_seeds_witness :
    ∃ hs w2, open_all [(2, [116]), (2, [116]), (1, [117])] (sample_init_func (World.boot 1 3))
        = .ok (hs, w2) ∧
      hs.map (fun h => h.sample_rand) = [1, 2, 3] ∧ w2.sample_seed = 4 ∧
      (hs.map (fun h => h.sample_rand)).Nodup :=
  distinct_seeds (World.boot 1 3) [(2, [116]), (2, [116]), (1, [117])] (by decide) (by decide)
    (by decide)

/-- C24: for every list built from `list_alloc` by a sequence of fewer than `2^64`
operations `list_insert_head`, `list_remove_head`, `list_delete`, the `length`
field equals the number of nodes reachable from `head`, and it is 0 exactly when
`list_is_empty`; `list_delete(l, x)` returns `TRUE` and removes exactly the first
node whose payload is `x` (decrementing `length`) when there is such a node, and
returns `FALSE` and leaves `l` as it is otherwise. -/
theorem list_length_invariant (α : Type) [DecidableEq α] (ops : List (ListOp α))
    (hlen : ops.length < UINT64_MOD) :
    (∃ l, list_run ops (list_alloc : list_t α) = .ok l ∧ l.length = l.head.length ∧
      (l.length = 0 ↔ list_is_empty l = true)) ∧
    (∀ (l : list_t α) (x : α), x ∈ l.head →
      ∃ pre post, l.head = pre ++ x :: post ∧ x ∉ pre ∧
        list_delete l x
          = (true, ⟨pre ++ post, (l.length + (UINT64_MOD - 1)) % UINT64_MOD⟩)) ∧
    (∀ (l : list_t α) (x : α), x ∉ l.head → list_delete l x = (false, l)) := by
  refine ⟨?_, ?_, ?_⟩
  · obtain ⟨l, h1, h2, _⟩ := list_run_inv ops (list_alloc : list_t α) rfl
      (by show 0 + ops.length < UINT64_MOD; omega)
    refine ⟨l, h1, h2, ?_⟩
    rw [h2]
    obtain ⟨xs, n⟩ := l
    cases xs with
    | nil => simp [list_is_empty]
    | cons y ys => simp [list_is_empty]
  · intro l x hx
    obtain ⟨pre, post, h1, h2, h3⟩ := list_delete_walk_some x l.head hx
    exact ⟨pre, post, h1, h2, by simp only [list_delete, h3]⟩
  · intro l x hx
    simp only [list_delete, list_delete_walk_none x l.head hx]

/-- Witness of C24: five operations on a list of numbers. -/
theorem list_length_invariant_witness :
    list_run [ListOp.insert_head 1, .insert_head 2, .insert_head 1, .delete 1, .remove_head]
        (list_alloc : list_t Nat)
      = .ok ⟨[1], 1⟩ ∧
    ∃ l, list_run [ListOp.insert_head 1, .insert_head 2, .insert_head 1, .delete 1, .remove_head]
        (list_alloc : list_t Nat) = .ok l ∧ l.length = l.head.length ∧
      (l.length = 0 ↔ list_is_empty l = true) :=
  ⟨by decide,
    (list_length_invariant Nat
      [ListOp.insert_head 1, .insert_head 2, .insert_head 1, .delete 1, .remove_head]
      (by decide)).1⟩

/-- X1: among the draws `0, ..., N - 1`, handed one after the other to `write_row`
on a table of rate `rate >= 1`, exactly `ceil(N / rate)` are admitted. -/
theorem admitted_draws (rate N : Nat) (hrate : 1 ≤ rate) (buf : List FieldVal) (lock : Bool) :
    admitted rate ((List.range N).map (fun r => (buf, r, lock))) = (N + rate - 1) / rate := by
  induction N with
  | zero =>
    simp only [List.range_zero, List.map_nil, admitted]
    exact (Nat.div_eq_of_lt (by omega)).symm
  | succ N ih =>
    rw [List.range_succ, List.map_append, admitted_append, ih, ceil_div_succ N rate hrate]
    simp [admitted]

/-- Witness of X1: of the `2^31` values that a draw of `lrand48_r` can take, a table
of rate 3 admits 715827883, and three times that number is not `2^31`. -/
theorem admitted_draws_witness :
    admitted 3 ((List.range 2147483648).map (fun r => (([] : List FieldVal), r, true)))
      = 715827883 ∧
    3 * 715827883 ≠ 2147483648 :=
  ⟨admitted_draws 3 2147483648 (by decide) [] true, by decide⟩

end Sample
